import Mathlib

/-!
Verification development for an inverted-index search engine
(`indexing.py`, `search_engine.py`): index construction, TF-IDF and
Okapi BM25 scoring, top-k retrieval, JSON persistence, and ranking
analytics (Spearman rank correlation over two ranked lists).

Python dictionaries are modelled as association lists that preserve
insertion order (as CPython dicts do).  Python is dynamically typed and
the JSON loader mixes integer and string document-id keys, so document
ids are modelled by the sum type `PyKey` below.  Floating point
arithmetic is modelled by exact arithmetic: `ℚ` for values stored in the
index and `ℝ` for scores (which involve the natural logarithm).
-/

/-- A Python dictionary key as it occurs for document ids in this code
base: either an integer (`int`) or a string (`str`).  In Python
`0 != "0"`, matching the `DecidableEq` derived here. -/
inductive PyKey where
  | int : Nat → PyKey
  | str : String → PyKey
deriving DecidableEq, Repr

/-- Lookup in an association list, mirroring Python `dict.get`. -/
def assocGet {α β : Type} [DecidableEq α] (l : List (α × β)) (k : α) : Option β :=
  match l with
  | [] => none
  | (k', v) :: rest => if k' = k then some v else assocGet rest k

/-- Assignment `d[k] = v` on an association list: overwrite in place if
the key is present (CPython keeps the entry position), append otherwise. -/
def assocSet {α β : Type} [DecidableEq α] (l : List (α × β)) (k : α) (v : β) :
    List (α × β) :=
  match l with
  | [] => [(k, v)]
  | (k', v') :: rest =>
      if k' = k then (k', v) :: rest else (k', v') :: assocSet rest k v

/-- A posting list: mapping from document id to term frequency
(`self.index[token]`, a `defaultdict(int)`). -/
abbrev Postings := List (PyKey × Nat)

/-- One step of `self.index[token][doc_id] += 1` inside a posting:
increment the count if the document is present, otherwise append the
document with count 1 (the `defaultdict(int)` default 0, incremented). -/
def bump (ps : Postings) (d : PyKey) : Postings :=
  match ps with
  | [] => [(d, 1)]
  | (d', c) :: rest => if d' = d then (d', c + 1) :: rest else (d', c) :: bump rest d

/-- `self.index[token][doc_id] += 1` at the term level: auto-vivifies
the posting for a new term (outer `defaultdict`). -/
def bumpIndex (ix : List (String × Postings)) (t : String) (d : PyKey) :
    List (String × Postings) :=
  match ix with
  | [] => [(t, [(d, 1)])]
  | (t', ps) :: rest =>
      if t' = t then (t', bump ps d) :: rest else (t', ps) :: bumpIndex rest t d

/-- The `InvertedIndex` object state: `self.index`, `self.doc_lengths`,
`self.num_docs`, `self.avg_doc_length`. -/
structure InvertedIndex where
  index : List (String × Postings)
  doc_lengths : List (PyKey × Nat)
  num_docs : Nat
  avg_doc_length : ℚ
deriving DecidableEq, Repr

/-- A well-formed input document for `build_index`: fields `id` and
`tokens` of a record of the preprocessed corpus. -/
structure Document where
  id : Nat
  tokens : List String
deriving DecidableEq, Repr

/-- The body of the `for doc in documents` loop of `build_index`,
threading the accumulated state and `total_length`:
record the document length, then index every token. -/
def buildStep (st : InvertedIndex × Nat) (doc : Document) : InvertedIndex × Nat :=
  ({ st.1 with
      doc_lengths := assocSet st.1.doc_lengths (PyKey.int doc.id) doc.tokens.length,
      index := doc.tokens.foldl (fun ix tok => bumpIndex ix tok (PyKey.int doc.id)) st.1.index },
    st.2 + doc.tokens.length)

/-- `InvertedIndex.build_index`: `num_docs` is set to the input length
up front, the loop fills postings and lengths, and afterwards
`avg_doc_length = total_length / num_docs` (0 for an empty corpus). -/
def build_index (docs : List Document) : InvertedIndex :=
  let res := docs.foldl buildStep
    ({ index := [], doc_lengths := [], num_docs := docs.length, avg_doc_length := 0 }, 0)
  { res.1 with
      avg_doc_length := if 0 < docs.length then (res.2 : ℚ) / (docs.length : ℚ) else 0 }

namespace InvertedIndex

/-- `get_document_frequency`: `len(self.index.get(term, {}))`. -/
def get_document_frequency (idx : InvertedIndex) (term : String) : Nat :=
  ((assocGet idx.index term).getD []).length

/-- `get_term_frequency`: `self.index.get(term, {}).get(doc_id, 0)`. -/
def get_term_frequency (idx : InvertedIndex) (term : String) (d : PyKey) : Nat :=
  (assocGet ((assocGet idx.index term).getD []) d).getD 0

/-- `get_posting_list`: `dict(self.index.get(term, {}))`. -/
def get_posting_list (idx : InvertedIndex) (term : String) : Postings :=
  (assocGet idx.index term).getD []

/-- The `doc_length = self.doc_lengths.get(doc_id, 0)` read shared by
both scorers. -/
def doc_length (idx : InvertedIndex) (d : PyKey) : Nat :=
  (assocGet idx.doc_lengths d).getD 0

/-- `calculate_idf`: 0 when the document frequency is 0, otherwise the
Okapi-with-plus-one variant `log((N - df + 0.5) / (df + 0.5) + 1)`. -/
noncomputable def calculate_idf (idx : InvertedIndex) (term : String) : ℝ :=
  let df := idx.get_document_frequency term
  if df = 0 then 0
  else Real.log (((idx.num_docs : ℝ) - (df : ℝ) + 0.5) / ((df : ℝ) + 0.5) + 1)

/-- The local `denominator` of the BM25 loop body:
`tf + k1 * (1 - b + b * (doc_length / self.avg_doc_length))`. -/
noncomputable def bm25Denominator (idx : InvertedIndex) (term : String) (d : PyKey)
    (k1 b : ℝ) : ℝ :=
  (idx.get_term_frequency term d : ℝ) +
    k1 * (1 - b + b * ((idx.doc_length d : ℝ) / ((idx.avg_doc_length : ℚ) : ℝ)))

/-- `calculate_bm25_score`: returns 0 for a zero recorded document
length, otherwise accumulates `idf * tf*(k1+1)/denominator` over the
query tokens present in the index (Python defaults `k1=1.5`, `b=0.75`). -/
noncomputable def calculate_bm25_score (idx : InvertedIndex) (query_tokens : List String)
    (d : PyKey) (k1 b : ℝ) : ℝ :=
  if idx.doc_length d = 0 then 0
  else query_tokens.foldl (fun score term =>
    if (assocGet idx.index term).isSome then
      score + idx.calculate_idf term *
        ((idx.get_term_frequency term d : ℝ) * (k1 + 1) / idx.bm25Denominator term d k1 b)
    else score) 0

/-- `calculate_tfidf_score`: returns 0 for a zero recorded document
length, otherwise accumulates `(tf / doc_length) * log(num_docs / df)`
over the query tokens present in the index (`idf = 0` when `df = 0`). -/
noncomputable def calculate_tfidf_score (idx : InvertedIndex) (query_tokens : List String)
    (d : PyKey) : ℝ :=
  if idx.doc_length d = 0 then 0
  else query_tokens.foldl (fun score term =>
    if (assocGet idx.index term).isSome then
      score + ((idx.get_term_frequency term d : ℝ) / (idx.doc_length d : ℝ)) *
        (if 0 < idx.get_document_frequency term then
          Real.log ((idx.num_docs : ℝ) / (idx.get_document_frequency term : ℝ))
        else 0)
    else score) 0

end InvertedIndex

namespace InvertedIndex

/-- The contribution of one query token to the BM25 score (0 when the
term is absent from the index). -/
noncomputable def bm25Contrib (idx : InvertedIndex) (d : PyKey) (k1 b : ℝ)
    (term : String) : ℝ :=
  if (assocGet idx.index term).isSome then
    idx.calculate_idf term *
      ((idx.get_term_frequency term d : ℝ) * (k1 + 1) / idx.bm25Denominator term d k1 b)
  else 0

/-- The contribution of one query token to the TF-IDF score (0 when the
term is absent from the index). -/
noncomputable def tfidfContrib (idx : InvertedIndex) (d : PyKey) (term : String) : ℝ :=
  if (assocGet idx.index term).isSome then
    ((idx.get_term_frequency term d : ℝ) / (idx.doc_length d : ℝ)) *
      (if 0 < idx.get_document_frequency term then
        Real.log ((idx.num_docs : ℝ) / (idx.get_document_frequency term : ℝ))
      else 0)
  else 0

end InvertedIndex

/-- A guarded accumulating fold is the starting value plus the sum of
the guarded contributions. -/
theorem foldl_guard_add {α : Type} (g : α → Bool) (c : α → ℝ) (l : List α) (a : ℝ) :
    l.foldl (fun s t => if g t then s + c t else s) a
      = a + (l.map (fun t => if g t then c t else 0)).sum := by
  induction l generalizing a with
  | nil => simp
  | cons t l ih =>
      simp only [List.foldl_cons, List.map_cons, List.sum_cons, ih]
      by_cases h : g t
      · rw [if_pos h, if_pos h]; ring
      · rw [if_neg h, if_neg h]; ring

namespace InvertedIndex

/-- The BM25 score of a document with nonzero recorded length is the sum
of per-token contributions over the query. -/
theorem calculate_bm25_score_eq_sum (idx : InvertedIndex) (q : List String) (d : PyKey)
    (k1 b : ℝ) (h : idx.doc_length d ≠ 0) :
    idx.calculate_bm25_score q d k1 b = (q.map (idx.bm25Contrib d k1 b)).sum := by
  unfold calculate_bm25_score
  rw [if_neg h, foldl_guard_add, zero_add]
  rfl

/-- The BM25 score of a document with zero recorded length (or no
recorded length) is 0. -/
theorem calculate_bm25_score_of_length_zero (idx : InvertedIndex) (q : List String)
    (d : PyKey) (k1 b : ℝ) (h : idx.doc_length d = 0) :
    idx.calculate_bm25_score q d k1 b = 0 := by
  unfold calculate_bm25_score
  rw [if_pos h]

/-- The TF-IDF score of a document with nonzero recorded length is the
sum of per-token contributions over the query. -/
theorem calculate_tfidf_score_eq_sum (idx : InvertedIndex) (q : List String) (d : PyKey)
    (h : idx.doc_length d ≠ 0) :
    idx.calculate_tfidf_score q d = (q.map (idx.tfidfContrib d)).sum := by
  unfold calculate_tfidf_score
  rw [if_neg h, foldl_guard_add, zero_add]
  rfl

/-- The TF-IDF score of a document with zero recorded length (or no
recorded length) is 0. -/
theorem calculate_tfidf_score_of_length_zero (idx : InvertedIndex) (q : List String)
    (d : PyKey) (h : idx.doc_length d = 0) :
    idx.calculate_tfidf_score q d = 0 := by
  unfold calculate_tfidf_score
  rw [if_pos h]

end InvertedIndex

/-- The spec's worked three-document corpus: doc0 `[a,a,b]`, doc1
`[b,c]`, doc2 `[a,c,c]`. -/
def docsC1 : List Document :=
  [⟨0, ["a", "a", "b"]⟩, ⟨1, ["b", "c"]⟩, ⟨2, ["a", "c", "c"]⟩]

/-- The index built from the worked corpus. -/
def idxC1 : InvertedIndex := build_index docsC1

/-- The average document length of the worked corpus is exactly 8/3. -/
theorem idxC1_avg_doc_length : idxC1.avg_doc_length = 8/3 := by
  have h : idxC1.avg_doc_length = ((8:ℕ):ℚ)/((3:ℕ):ℚ) := rfl
  rw [h]; norm_num

/-- C1: on the worked corpus (doc0 `[a,a,b]`, doc1 `[b,c]`, doc2 `[a,c,c]`)
built by `build_index`, `avg_doc_length = 8/3`, `df(a)=df(b)=df(c)=2`,
the TF-IDF scores for query `[a]` are `(2/3)·ln(3/2)` for doc0,
`(1/3)·ln(3/2)` for doc2 and 0 for doc1, and the BM25 score of doc0 with
`k1=1.5, b=0.75` is `ln(1.6) · (2·2.5) / (2 + 1.5·(0.25 + 0.75·(3/(8/3))))`. -/
theorem C1_worked_example :
    idxC1.avg_doc_length = 8/3 ∧
    idxC1.get_document_frequency "a" = 2 ∧
    idxC1.get_document_frequency "b" = 2 ∧
    idxC1.get_document_frequency "c" = 2 ∧
    idxC1.calculate_tfidf_score ["a"] (PyKey.int 0) = 2/3 * Real.log (3/2) ∧
    idxC1.calculate_tfidf_score ["a"] (PyKey.int 2) = 1/3 * Real.log (3/2) ∧
    idxC1.calculate_tfidf_score ["a"] (PyKey.int 1) = 0 ∧
    idxC1.calculate_bm25_score ["a"] (PyKey.int 0) 1.5 0.75
      = Real.log 1.6 * (2 * 2.5) / (2 + 1.5 * (0.25 + 0.75 * (3 / (8/3)))) := by
  have h1 : (assocGet idxC1.index "a").isSome = true := by decide
  have h4 : idxC1.get_document_frequency "a" = 2 := by decide
  have h5 : idxC1.num_docs = 3 := by decide
  refine ⟨idxC1_avg_doc_length, by decide, by decide, by decide, ?_, ?_, ?_, ?_⟩
  · rw [InvertedIndex.calculate_tfidf_score_eq_sum _ _ _ (by decide)]
    simp only [List.map_cons, List.map_nil, List.sum_cons, List.sum_nil, add_zero]
    have h2 : idxC1.get_term_frequency "a" (PyKey.int 0) = 2 := by decide
    have h3 : idxC1.doc_length (PyKey.int 0) = 3 := by decide
    simp only [InvertedIndex.tfidfContrib, h1, h2, h3, h4, h5, if_true]
    norm_num
  · rw [InvertedIndex.calculate_tfidf_score_eq_sum _ _ _ (by decide)]
    simp only [List.map_cons, List.map_nil, List.sum_cons, List.sum_nil, add_zero]
    have h2 : idxC1.get_term_frequency "a" (PyKey.int 2) = 1 := by decide
    have h3 : idxC1.doc_length (PyKey.int 2) = 3 := by decide
    simp only [InvertedIndex.tfidfContrib, h1, h2, h3, h4, h5, if_true]
    norm_num
  · rw [InvertedIndex.calculate_tfidf_score_eq_sum _ _ _ (by decide)]
    simp only [List.map_cons, List.map_nil, List.sum_cons, List.sum_nil, add_zero]
    have h2 : idxC1.get_term_frequency "a" (PyKey.int 1) = 0 := by decide
    simp only [InvertedIndex.tfidfContrib, h1, h2, if_true]
    norm_num
  · rw [InvertedIndex.calculate_bm25_score_eq_sum _ _ _ _ _ (by decide)]
    simp only [List.map_cons, List.map_nil, List.sum_cons, List.sum_nil, add_zero]
    have h2 : idxC1.get_term_frequency "a" (PyKey.int 0) = 2 := by decide
    have h3 : idxC1.doc_length (PyKey.int 0) = 3 := by decide
    simp only [InvertedIndex.bm25Contrib, InvertedIndex.bm25Denominator,
      InvertedIndex.calculate_idf, h1, h2, h3, h4, h5, idxC1_avg_doc_length, if_true]
    push_cast
    norm_num
    ring_nf

/-- Rendering of a document-id key by Python `str(key)` when
`json.dump` serializes dictionary keys. -/
def pyStr : PyKey → String
  | PyKey.int n => toString n
  | PyKey.str s => s

/-- Python `int(s)` on a decimal numeral string (the only shape the
loader meets, since the keys were produced by `str` of an `int`). -/
def strToNat (s : String) : Nat :=
  s.data.foldl (fun acc c => acc * 10 + (c.toNat - 48)) 0

/-- The structured (JSON) dump written by the `json_file` branch of
`save_index`: metadata block, the index with document-id keys forced to
strings by JSON, and the document-length map likewise. -/
structure JsonIndexData where
  num_docs : Nat
  num_unique_terms : Nat
  avg_doc_length : ℚ
  index : List (String × List (String × Nat))
  doc_lengths : List (String × Nat)
deriving DecidableEq, Repr

/-- The `json_file` branch of `save_index`. -/
def save_index_json (idx : InvertedIndex) : JsonIndexData :=
  { num_docs := idx.num_docs
    num_unique_terms := idx.index.length
    avg_doc_length := idx.avg_doc_length
    index := idx.index.map (fun p => (p.1, p.2.map (fun q => (pyStr q.1, q.2))))
    doc_lengths := idx.doc_lengths.map (fun q => (pyStr q.1, q.2)) }

/-- `load_index_from_json`: metadata is copied back; each posting dict
is taken from the parsed JSON as-is, so its document-id keys stay
strings; the `for key in obj.doc_lengths` loop converts the length
map's keys back to integers with `int(key)` (its net effect on the
CPython dict, modelled here, is that every string key is replaced by
the parsed integer key with the value kept). -/
def load_index_from_json (j : JsonIndexData) : InvertedIndex :=
  { num_docs := j.num_docs
    avg_doc_length := j.avg_doc_length
    index := j.index.map (fun p => (p.1, p.2.map (fun q => (PyKey.str q.1, q.2))))
    doc_lengths := j.doc_lengths.map (fun q => (PyKey.int (strToNat q.1), q.2)) }

/-- A one-document corpus exhibiting the JSON round-trip defect. -/
def docsC2 : List Document := [⟨0, ["a"]⟩]

/-- The index built from `docsC2`. -/
def idxC2 : InvertedIndex := build_index docsC2

/-- C2 (failing input): saving `idxC2` to the structured JSON format and
loading it back reproduces `num_docs`, `avg_doc_length` and the
integer-coerced `doc_lengths`, but the term-to-posting mapping is not
reproduced: the loader leaves posting document-id keys as strings, so
the loaded index maps `("a", "0")` instead of `("a", 0)` and
`get_term_frequency "a" 0` drops from 1 to 0. -/
theorem C2_json_roundtrip_failure :
    (load_index_from_json (save_index_json idxC2)).num_docs = idxC2.num_docs ∧
    (load_index_from_json (save_index_json idxC2)).avg_doc_length = idxC2.avg_doc_length ∧
    (load_index_from_json (save_index_json idxC2)).doc_lengths = idxC2.doc_lengths ∧
    (load_index_from_json (save_index_json idxC2)).index ≠ idxC2.index ∧
    (load_index_from_json (save_index_json idxC2)).index
      = [("a", [(PyKey.str "0", 1)])] ∧
    idxC2.index = [("a", [(PyKey.int 0, 1)])] ∧
    (load_index_from_json (save_index_json idxC2)).get_term_frequency "a" (PyKey.int 0) = 0 ∧
    idxC2.get_term_frequency "a" (PyKey.int 0) = 1 := by
  refine ⟨rfl, rfl, by decide, by decide, by decide, by decide, by decide, by decide⟩

/-- Membership of a successful association-list lookup. -/
theorem assocGet_mem {α β : Type} [DecidableEq α] {l : List (α × β)} {k : α} {v : β}
    (h : assocGet l k = some v) : (k, v) ∈ l := by
  induction l with
  | nil => simp [assocGet] at h
  | cons p rest ih =>
      rw [assocGet] at h
      by_cases hk : p.1 = k
      · rw [if_pos hk] at h
        obtain ⟨a, b⟩ := p
        rw [← hk, ← Option.some_inj.mp h]
        exact List.mem_cons_self _ _
      · rw [if_neg hk] at h
        exact List.mem_cons_of_mem _ (ih h)

/-- A lookup succeeds exactly when the key occurs in the key list. -/
theorem assocGet_isSome_iff {α β : Type} [DecidableEq α] {l : List (α × β)} {k : α} :
    (assocGet l k).isSome = true ↔ k ∈ l.map Prod.fst := by
  induction l with
  | nil => simp [assocGet]
  | cons p rest ih =>
      rw [assocGet]
      by_cases hk : p.1 = k
      · simp [if_pos hk, hk]
      · simp only [if_neg hk, List.map_cons, List.mem_cons, ih]
        constructor
        · exact Or.inr
        · rintro (h | h)
          · exact absurd h.symm hk
          · exact h

/-- Assignment then lookup of a different key. -/
theorem assocGet_assocSet_ne {α β : Type} [DecidableEq α] (l : List (α × β)) (k k' : α)
    (v : β) (h : k ≠ k') : assocGet (assocSet l k v) k' = assocGet l k' := by
  induction l with
  | nil => simp [assocSet, assocGet, h]
  | cons p rest ih =>
      rw [assocSet]
      by_cases hk : p.1 = k
      · rw [if_pos hk, assocGet, assocGet, hk]
        rw [if_neg h, if_neg (hk ▸ h)]
      · rw [if_neg hk, assocGet, assocGet, ih]

/-- Assignment then lookup of the same key. -/
theorem assocGet_assocSet_self {α β : Type} [DecidableEq α] (l : List (α × β)) (k : α)
    (v : β) : assocGet (assocSet l k v) k = some v := by
  induction l with
  | nil => simp [assocSet, assocGet]
  | cons p rest ih =>
      rw [assocSet]
      by_cases hk : p.1 = k
      · rw [if_pos hk, assocGet, if_pos hk]
      · rw [if_neg hk, assocGet, if_neg hk, ih]

/-- Assignment can only grow the set of keys that look up successfully. -/
theorem assocGet_assocSet_isSome {α β : Type} [DecidableEq α] (l : List (α × β))
    (k k' : α) (v : β) (h : (assocGet l k').isSome = true) :
    (assocGet (assocSet l k v) k').isSome = true := by
  by_cases hk : k = k'
  · rw [← hk, assocGet_assocSet_self]; rfl
  · rw [assocGet_assocSet_ne _ _ _ _ hk]; exact h

/-- Every entry of an assignment result is the assigned pair or an
entry of the original list. -/
theorem mem_assocSet {α β : Type} [DecidableEq α] {l : List (α × β)} {k : α} {v : β}
    {q : α × β} (h : q ∈ assocSet l k v) : q.2 = v ∨ q ∈ l := by
  induction l with
  | nil => simp [assocSet] at h; simp [h]
  | cons p rest ih =>
      rw [assocSet] at h
      by_cases hk : p.1 = k
      · rw [if_pos hk] at h
        rcases List.mem_cons.mp h with h | h
        · left; rw [h]
        · right; exact List.mem_cons_of_mem _ h
      · rw [if_neg hk] at h
        rcases List.mem_cons.mp h with h | h
        · right; exact h ▸ List.mem_cons_self _ _
        · rcases ih h with h | h
          · left; exact h
          · right; exact List.mem_cons_of_mem _ h

/-- The key list after an assignment: unchanged when the key was
present, the key appended otherwise. -/
theorem assocSet_keys {α β : Type} [DecidableEq α] (l : List (α × β)) (k : α) (v : β) :
    (assocSet l k v).map Prod.fst
      = if k ∈ l.map Prod.fst then l.map Prod.fst else l.map Prod.fst ++ [k] := by
  induction l with
  | nil => simp [assocSet]
  | cons p rest ih =>
      rw [assocSet]
      by_cases hk : p.1 = k
      · simp [if_pos hk, hk]
      · have hne : ¬ k = p.1 := fun h => hk h.symm
        simp only [if_neg hk, List.map_cons, ih, List.mem_cons, hne, false_or]
        by_cases hm : k ∈ rest.map Prod.fst <;> simp [hm]

/-- The key list after a posting increment: unchanged when the document
was present, the document appended otherwise. -/
theorem bump_keys (ps : Postings) (d : PyKey) :
    (bump ps d).map Prod.fst
      = if d ∈ ps.map Prod.fst then ps.map Prod.fst else ps.map Prod.fst ++ [d] := by
  induction ps with
  | nil => simp [bump]
  | cons p rest ih =>
      rw [bump]
      by_cases hk : p.1 = d
      · simp [if_pos hk, hk]
      · have hne : ¬ d = p.1 := fun h => hk h.symm
        simp only [if_neg hk, List.map_cons, ih, List.mem_cons, hne, false_or]
        by_cases hm : d ∈ rest.map Prod.fst <;> simp [hm]

/-- A posting increment never produces an empty posting. -/
theorem bump_ne_nil (ps : Postings) (d : PyKey) : bump ps d ≠ [] := by
  cases ps with
  | nil => simp [bump]
  | cons p rest =>
      rw [bump]
      by_cases hk : p.1 = d
      · simp [if_pos hk]
      · simp [if_neg hk]

/-- A posting increment keeps every stored term frequency at least 1. -/
theorem bump_tf_pos {ps : Postings} (hp : ∀ q ∈ ps, 1 ≤ q.2) (d : PyKey) :
    ∀ q ∈ bump ps d, 1 ≤ q.2 := by
  induction ps with
  | nil => intro q hq; simp [bump] at hq; simp [hq]
  | cons p rest ih =>
      intro q hq
      rw [bump] at hq
      by_cases hk : p.1 = d
      · rw [if_pos hk] at hq
        rcases List.mem_cons.mp hq with h | h
        · rw [h]; exact Nat.le_add_left 1 _
        · exact hp q (List.mem_cons_of_mem _ h)
      · rw [if_neg hk] at hq
        rcases List.mem_cons.mp hq with h | h
        · rw [h]; exact hp p (List.mem_cons_self _ _)
        · exact ih (fun q hq => hp q (List.mem_cons_of_mem _ hq)) q h

/-- Every document id in an incremented posting is an old document id
or the incremented one. -/
theorem bump_keys_sub {ps : Postings} {d : PyKey} {q : PyKey × Nat}
    (hq : q ∈ bump ps d) : q.1 ∈ ps.map Prod.fst ∨ q.1 = d := by
  have h : q.1 ∈ (bump ps d).map Prod.fst := List.mem_map_of_mem Prod.fst hq
  rw [bump_keys] at h
  by_cases hm : d ∈ ps.map Prod.fst
  · rw [if_pos hm] at h; exact Or.inl h
  · rw [if_neg hm] at h
    rcases List.mem_append.mp h with h | h
    · exact Or.inl h
    · exact Or.inr (List.mem_singleton.mp h)

/-- A posting increment keeps the document-id keys duplicate-free. -/
theorem bump_nodup {ps : Postings} (hp : (ps.map Prod.fst).Nodup) (d : PyKey) :
    ((bump ps d).map Prod.fst).Nodup := by
  rw [bump_keys]
  by_cases hm : d ∈ ps.map Prod.fst
  · rw [if_pos hm]; exact hp
  · rw [if_neg hm]
    refine hp.append (List.nodup_singleton d) ?_
    intro x hx hxd
    rw [List.mem_singleton.mp hxd] at hx
    exact hm hx

/-- Case analysis for an entry of the index after one token increment:
it is an untouched entry, the incremented posting of an old entry of
the same term, or a freshly vivified entry. -/
theorem mem_bumpIndex {ix : List (String × Postings)} {t : String} {d : PyKey}
    {p : String × Postings} (hp : p ∈ bumpIndex ix t d) :
    p ∈ ix ∨ (∃ ps, (t, ps) ∈ ix ∧ p = (t, bump ps d)) ∨ p = (t, [(d, 1)]) := by
  induction ix with
  | nil =>
      simp [bumpIndex] at hp
      exact Or.inr (Or.inr (by simp [hp]))
  | cons e rest ih =>
      rw [bumpIndex] at hp
      by_cases hk : e.1 = t
      · rw [if_pos hk] at hp
        rcases List.mem_cons.mp hp with h | h
        · rw [hk] at h
          refine Or.inr (Or.inl ⟨e.2, ?_, h⟩)
          rw [← hk]
          exact List.mem_cons_self _ _
        · exact Or.inl (List.mem_cons_of_mem _ h)
      · rw [if_neg hk] at hp
        rcases List.mem_cons.mp hp with h | h
        · exact Or.inl (h ▸ List.mem_cons_self _ _)
        · rcases ih h with h | h | h
          · exact Or.inl (List.mem_cons_of_mem _ h)
          · rcases h with ⟨ps, hps, hpe⟩
            exact Or.inr (Or.inl ⟨ps, List.mem_cons_of_mem _ hps, hpe⟩)
          · exact Or.inr (Or.inr h)

/-- Well-formedness of the index under construction, relative to the
current document-length map `L`: every posting has duplicate-free
document-id keys, is nonempty, stores only term frequencies at least 1,
and only document ids with a recorded length. -/
def PostOk (L : List (PyKey × Nat)) (ix : List (String × Postings)) : Prop :=
  ∀ p ∈ ix, (p.2.map Prod.fst).Nodup ∧ p.2 ≠ [] ∧
    ∀ q ∈ p.2, 1 ≤ q.2 ∧ (assocGet L q.1).isSome = true

/-- One token increment preserves index well-formedness, provided the
incremented document id has a recorded length. -/
theorem PostOk.bumpIndex_pres {L : List (PyKey × Nat)} {ix : List (String × Postings)}
    (h : PostOk L ix) (t : String) {d : PyKey} (hd : (assocGet L d).isSome = true) :
    PostOk L (bumpIndex ix t d) := by
  intro p hp
  rcases mem_bumpIndex hp with h1 | ⟨ps, hps, rfl⟩ | rfl
  · exact h p h1
  · obtain ⟨hnd, -, hq⟩ := h (t, ps) hps
    refine ⟨bump_nodup hnd d, bump_ne_nil _ _, ?_⟩
    intro q hq2
    refine ⟨bump_tf_pos (fun r hr => (hq r hr).1) d q hq2, ?_⟩
    rcases bump_keys_sub hq2 with hk | hk
    · rcases List.mem_map.mp hk with ⟨r, hr, hrk⟩
      exact hrk ▸ (hq r hr).2
    · exact hk ▸ hd
  · refine ⟨by simp, by simp, ?_⟩
    intro q hq2
    rw [List.mem_singleton.mp hq2]
    exact ⟨le_refl 1, hd⟩

/-- The whole token loop of one document preserves index
well-formedness. -/
theorem PostOk.tokFold {L : List (PyKey × Nat)} {d : PyKey}
    (hd : (assocGet L d).isSome = true) (toks : List String)
    {ix : List (String × Postings)} (h : PostOk L ix) :
    PostOk L (toks.foldl (fun ix tok => bumpIndex ix tok d) ix) := by
  induction toks generalizing ix with
  | nil => exact h
  | cons t toks ih => exact ih (h.bumpIndex_pres t hd)

/-- Index well-formedness is monotone in the document-length map under
assignment. -/
theorem PostOk.assocSet_pres {L : List (PyKey × Nat)} {ix : List (String × Postings)}
    (h : PostOk L ix) (k : PyKey) (v : Nat) : PostOk (assocSet L k v) ix := by
  intro p hp
  obtain ⟨hnd, hne, hq⟩ := h p hp
  exact ⟨hnd, hne, fun q hq2 =>
    ⟨(hq q hq2).1, assocGet_assocSet_isSome _ _ _ _ (hq q hq2).2⟩⟩

/-- Assignment preserves duplicate-freeness of the key list. -/
theorem assocSet_nodup {α β : Type} [DecidableEq α] {l : List (α × β)}
    (h : (l.map Prod.fst).Nodup) (k : α) (v : β) :
    ((assocSet l k v).map Prod.fst).Nodup := by
  rw [assocSet_keys]
  by_cases hm : k ∈ l.map Prod.fst
  · rw [if_pos hm]; exact h
  · rw [if_neg hm]
    refine h.append (List.nodup_singleton k) ?_
    intro x hx hxk
    rw [List.mem_singleton.mp hxk] at hx
    exact hm hx

/-- Assignment adds at most one entry. -/
theorem assocSet_length {α β : Type} [DecidableEq α] (l : List (α × β)) (k : α) (v : β) :
    (assocSet l k v).length ≤ l.length + 1 := by
  induction l with
  | nil => simp [assocSet]
  | cons p rest ih =>
      rw [assocSet]
      by_cases hk : p.1 = k
      · rw [if_pos hk]; simp
      · rw [if_neg hk]
        simpa using Nat.succ_le_succ ih

/-- The build-loop invariant: the index is well-formed with respect to
the length map, the length map has duplicate-free keys, every recorded
length is bounded by the accumulated `total_length`, and the length map
has at most as many entries as documents processed so far plus what it
started with. -/
def BuildOk (st : InvertedIndex × Nat) : Prop :=
  PostOk st.1.doc_lengths st.1.index ∧
  (st.1.doc_lengths.map Prod.fst).Nodup ∧
  ∀ q ∈ st.1.doc_lengths, q.2 ≤ st.2

/-- One document of the build loop preserves the invariant. -/
theorem BuildOk.step {st : InvertedIndex × Nat} (h : BuildOk st) (doc : Document) :
    BuildOk (buildStep st doc) := by
  obtain ⟨hpost, hnd, hle⟩ := h
  unfold BuildOk buildStep
  refine ⟨?_, assocSet_nodup hnd _ _, ?_⟩
  · refine PostOk.tokFold ?_ doc.tokens ((hpost.assocSet_pres _ _))
    rw [assocGet_assocSet_self]
    rfl
  · intro q hq
    rcases mem_assocSet hq with h | h
    · rw [h]; exact Nat.le_add_left _ _
    · exact Nat.le_trans (hle q h) (Nat.le_add_right _ _)

/-- The whole build loop preserves the invariant. -/
theorem BuildOk.fold {st : InvertedIndex × Nat} (h : BuildOk st) (docs : List Document) :
    BuildOk (docs.foldl buildStep st) := by
  induction docs generalizing st with
  | nil => exact h
  | cons doc docs ih => exact ih (h.step doc)

/-- The build loop never touches `num_docs`. -/
theorem buildFold_num_docs (st : InvertedIndex × Nat) (docs : List Document) :
    (docs.foldl buildStep st).1.num_docs = st.1.num_docs := by
  induction docs generalizing st with
  | nil => rfl
  | cons doc docs ih => exact ih (buildStep st doc)

/-- The build loop adds at most one length entry per document. -/
theorem buildFold_doc_lengths_le (st : InvertedIndex × Nat) (docs : List Document) :
    (docs.foldl buildStep st).1.doc_lengths.length
      ≤ st.1.doc_lengths.length + docs.length := by
  induction docs generalizing st with
  | nil => simp
  | cons doc docs ih =>
      refine Nat.le_trans (ih (buildStep st doc)) ?_
      have := assocSet_length st.1.doc_lengths (PyKey.int doc.id) doc.tokens.length
      simp only [List.length_cons, buildStep]
      omega

/-- The state at entry of the build loop: empty maps, `num_docs` already
set to the input length, zero accumulated total. -/
def buildInit (docs : List Document) : InvertedIndex × Nat :=
  ({ index := [], doc_lengths := [], num_docs := docs.length, avg_doc_length := 0 }, 0)

/-- Projection of `build_index` to the loop fold: the index mapping. -/
theorem build_index_index (docs : List Document) :
    (build_index docs).index = (docs.foldl buildStep (buildInit docs)).1.index := rfl

/-- Projection of `build_index` to the loop fold: the length map. -/
theorem build_index_doc_lengths (docs : List Document) :
    (build_index docs).doc_lengths = (docs.foldl buildStep (buildInit docs)).1.doc_lengths := rfl

/-- Projection of `build_index` to the loop fold: the average length. -/
theorem build_index_avg (docs : List Document) :
    (build_index docs).avg_doc_length
      = if 0 < docs.length
        then ((docs.foldl buildStep (buildInit docs)).2 : ℚ) / (docs.length : ℚ)
        else 0 := rfl

/-- `num_docs` of a built index is the number of input documents. -/
theorem build_index_num_docs (docs : List Document) :
    (build_index docs).num_docs = docs.length := by
  have h : (build_index docs).num_docs = (docs.foldl buildStep (buildInit docs)).1.num_docs := rfl
  rw [h, buildFold_num_docs]
  rfl

/-- The build-loop invariant holds at the end of the loop. -/
theorem build_index_buildOk (docs : List Document) :
    BuildOk (docs.foldl buildStep (buildInit docs)) := by
  refine BuildOk.fold ⟨?_, ?_, ?_⟩ docs
  · intro p hp; cases hp
  · simp [buildInit]
  · intro q hq; cases hq

/-- A built index has at most one length entry per input document. -/
theorem build_index_doc_lengths_le (docs : List Document) :
    (build_index docs).doc_lengths.length ≤ docs.length := by
  rw [build_index_doc_lengths]
  have h := buildFold_doc_lengths_le (buildInit docs) docs
  simpa [buildInit] using h

/-- If some document has a nonzero recorded length, the built average
document length is strictly positive. -/
theorem build_index_avg_pos (docs : List Document) {d : PyKey} {Lv : Nat}
    (h : assocGet (build_index docs).doc_lengths d = some Lv) (hLv : Lv ≠ 0) :
    0 < (build_index docs).avg_doc_length := by
  have hBO := build_index_buildOk docs
  have hmem : (d, Lv) ∈ (docs.foldl buildStep (buildInit docs)).1.doc_lengths := by
    rw [← build_index_doc_lengths]
    exact assocGet_mem h
  have hle : Lv ≤ (docs.foldl buildStep (buildInit docs)).2 := hBO.2.2 _ hmem
  have hpos : 0 < docs.length := by
    by_contra hcon
    have hz : docs = [] := List.length_eq_zero.mp (Nat.eq_zero_of_not_pos hcon)
    rw [hz] at hmem
    cases hmem
  rw [build_index_avg, if_pos hpos]
  refine div_pos ?_ (by exact_mod_cast hpos)
  have : 0 < (docs.foldl buildStep (buildInit docs)).2 :=
    Nat.lt_of_lt_of_le (Nat.pos_of_ne_zero hLv) hle
  exact_mod_cast this

/-- The document frequency of any term never exceeds `num_docs` in a
built index. -/
theorem build_index_df_le_num_docs (docs : List Document) (t : String) :
    (build_index docs).get_document_frequency t ≤ (build_index docs).num_docs := by
  rw [build_index_num_docs]
  unfold InvertedIndex.get_document_frequency
  cases hA : assocGet (build_index docs).index t with
  | none => simp
  | some ps =>
      have hBO := build_index_buildOk docs
      have hmem : (t, ps) ∈ (docs.foldl buildStep (buildInit docs)).1.index := by
        rw [← build_index_index]
        exact assocGet_mem hA
      obtain ⟨hnd, -, hq⟩ := hBO.1 _ hmem
      have hsub : (ps.map Prod.fst)
          ⊆ ((docs.foldl buildStep (buildInit docs)).1.doc_lengths.map Prod.fst) := by
        intro x hx
        rcases List.mem_map.mp hx with ⟨q, hqm, hqx⟩
        have := (hq q hqm).2
        rw [hqx] at this
        exact assocGet_isSome_iff.mp this
      have hlen : (ps.map Prod.fst).length
          ≤ ((docs.foldl buildStep (buildInit docs)).1.doc_lengths.map Prod.fst).length :=
        (List.subperm_of_subset hnd hsub).length_le
      simp only [Option.getD_some, List.length_map] at hlen ⊢
      calc ps.length ≤ (docs.foldl buildStep (buildInit docs)).1.doc_lengths.length := hlen
    _ ≤ docs.length := by
        rw [← build_index_doc_lengths]
        exact build_index_doc_lengths_le docs

/-- C6: in any index produced by `build_index`, every document id that
occurs in a term's posting has an entry in `doc_lengths`; for every term
`t`, `get_document_frequency t` equals the number of distinct document
ids in its posting; every stored term frequency is an integer at least
1; and the sum of the term frequencies of a posting is at least the
document frequency. -/
theorem C6_build_invariants (docs : List Document) (t : String) :
    (∀ q ∈ (build_index docs).get_posting_list t,
        1 ≤ q.2 ∧ (assocGet (build_index docs).doc_lengths q.1).isSome = true) ∧
    (build_index docs).get_document_frequency t
      = (((build_index docs).get_posting_list t).map Prod.fst).toFinset.card ∧
    (build_index docs).get_document_frequency t
      ≤ (((build_index docs).get_posting_list t).map Prod.snd).sum := by
  unfold InvertedIndex.get_posting_list InvertedIndex.get_document_frequency
  cases hA : assocGet (build_index docs).index t with
  | none => simp
  | some ps =>
      have hBO := build_index_buildOk docs
      have hmem : (t, ps) ∈ (docs.foldl buildStep (buildInit docs)).1.index := by
        rw [← build_index_index]
        exact assocGet_mem hA
      obtain ⟨hnd, -, hq⟩ := hBO.1 _ hmem
      have hq' : ∀ q ∈ ps, 1 ≤ q.2 ∧
          (assocGet (build_index docs).doc_lengths q.1).isSome = true := by
        intro q hqm
        rw [build_index_doc_lengths]
        exact hq q hqm
      refine ⟨by simpa using hq', ?_, ?_⟩
      · simp only [Option.getD_some]
        rw [List.toFinset_card_of_nodup hnd, List.length_map]
      · simp only [Option.getD_some]
        have := List.length_le_sum_of_one_le (ps.map Prod.snd) (by
          intro i hi
          rcases List.mem_map.mp hi with ⟨q, hqm, hqi⟩
          exact hqi ▸ (hq' q hqm).1)
        simpa using this

/-- C6 witness: on the worked corpus, term `a` has the posting entry
`(doc 0, tf 2)`, whose document id is recorded in the length map, with
`tf ≥ 1`; and `df(a) = 2` equals the distinct-id count and is at most
the posting's frequency sum 3. -/
theorem C6_build_invariants_witness :
    ((PyKey.int 0, 2) ∈ (build_index docsC1).get_posting_list "a") ∧
    (1 ≤ (PyKey.int 0, 2).2 ∧
      (assocGet (build_index docsC1).doc_lengths (PyKey.int 0, 2).1).isSome = true) ∧
    (build_index docsC1).get_document_frequency "a"
      = (((build_index docsC1).get_posting_list "a").map Prod.fst).toFinset.card ∧
    (build_index docsC1).get_document_frequency "a"
      ≤ (((build_index docsC1).get_posting_list "a").map Prod.snd).sum :=
  ⟨by decide, (C6_build_invariants docsC1 "a").1 (PyKey.int 0, 2) (by decide),
    (C6_build_invariants docsC1 "a").2.1, (C6_build_invariants docsC1 "a").2.2⟩

/-- In a built index every term with a nonzero document frequency has a
strictly positive idf: the formula is `log((N - df + 0.5)/(df + 0.5) + 1)`
and `df ≤ N`, so the argument of the logarithm exceeds 1. -/
theorem build_idf_pos (docs : List Document) (t : String)
    (hdf : 1 ≤ (build_index docs).get_document_frequency t) :
    0 < (build_index docs).calculate_idf t := by
  have hdfN : (build_index docs).get_document_frequency t ≤ (build_index docs).num_docs :=
    build_index_df_le_num_docs docs t
  unfold InvertedIndex.calculate_idf
  rw [if_neg (by omega)]
  apply Real.log_pos
  rw [lt_add_iff_pos_left]
  refine div_pos ?_ (by positivity)
  have h : ((build_index docs).get_document_frequency t : ℝ)
      ≤ ((build_index docs).num_docs : ℝ) := by exact_mod_cast hdfN
  linarith

/-- C7 counterexample: no term of any built index — in particular none
contained in more than half the documents — has a negative
`calculate_idf`; the `+ 1` inside the logarithm prevents the negative
idf the claim asserts. -/
theorem C7_counterexample :
    ¬ ∃ (docs : List Document) (t : String),
        (build_index docs).num_docs < 2 * (build_index docs).get_document_frequency t ∧
        1 ≤ (build_index docs).get_document_frequency t ∧
        (build_index docs).calculate_idf t < 0 := by
  rintro ⟨docs, t, -, hdf, hneg⟩
  exact absurd hneg (not_lt.mpr (le_of_lt (build_idf_pos docs t hdf)))

/-- C7 amended: `calculate_idf` on a built index is strictly positive
for every term with `df ≥ 1` — including every term contained in more
than half the documents — so no clamping is needed and idf-driven
negative BM25 contributions cannot occur. -/
theorem C7_idf_never_negative (docs : List Document) (t : String)
    (hdf : 1 ≤ (build_index docs).get_document_frequency t) :
    0 < (build_index docs).calculate_idf t :=
  build_idf_pos docs t hdf

/-- C7 witness: on the worked corpus the term `a` is contained in 2 of
the 3 documents — more than half — and its idf is strictly positive. -/
theorem C7_idf_never_negative_witness :
    (build_index docsC1).num_docs < 2 * (build_index docsC1).get_document_frequency "a" ∧
    1 ≤ (build_index docsC1).get_document_frequency "a" ∧
    0 < (build_index docsC1).calculate_idf "a" :=
  ⟨by decide, by decide, C7_idf_never_negative docsC1 "a" (by decide)⟩

/-- Dropping the elements on which a function vanishes does not change
the sum of its values over a list. -/
theorem sum_map_filter_of_zero {α : Type} (p : α → Bool) (f : α → ℝ) (l : List α)
    (h : ∀ t, p t = false → f t = 0) :
    ((l.filter p).map f).sum = (l.map f).sum := by
  induction l with
  | nil => rfl
  | cons t l ih =>
      rw [List.filter_cons]
      by_cases hp : p t
      · rw [if_pos hp]
        simp [ih]
      · rw [if_neg hp]
        simp [ih, h t (Bool.not_eq_true _ ▸ hp)]

/-- C9: on any built index, a document whose recorded length is 0 or
that is absent from `doc_lengths` scores exactly 0 under both scorers;
both scorers ignore query terms absent from the index (filtering them
out leaves the score unchanged); and for a document with nonzero
recorded length every divisor the scorers use — the document length,
`avg_doc_length`, the document frequency of an indexed term, and the
BM25 denominator at the default `k1=1.5, b=0.75` — is nonzero. -/
theorem C9_degenerate_guards (docs : List Document) (q : List String) (d : PyKey)
    (k1 b : ℝ) :
    (assocGet (build_index docs).doc_lengths d = none ∨
        assocGet (build_index docs).doc_lengths d = some 0 →
      (build_index docs).calculate_bm25_score q d k1 b = 0 ∧
      (build_index docs).calculate_tfidf_score q d = 0) ∧
    ((build_index docs).calculate_bm25_score q d k1 b
        = (build_index docs).calculate_bm25_score
            (q.filter (fun t => (assocGet (build_index docs).index t).isSome)) d k1 b ∧
      (build_index docs).calculate_tfidf_score q d
        = (build_index docs).calculate_tfidf_score
            (q.filter (fun t => (assocGet (build_index docs).index t).isSome)) d) ∧
    ((build_index docs).doc_length d ≠ 0 →
      ((build_index docs).doc_length d : ℝ) ≠ 0 ∧
      (((build_index docs).avg_doc_length : ℚ) : ℝ) ≠ 0 ∧
      ∀ t, (assocGet (build_index docs).index t).isSome = true →
        ((build_index docs).get_document_frequency t : ℝ) ≠ 0 ∧
        (build_index docs).bm25Denominator t d 1.5 0.75 ≠ 0) := by
  refine ⟨?_, ?_, ?_⟩
  · intro h
    have hz : (build_index docs).doc_length d = 0 := by
      unfold InvertedIndex.doc_length
      rcases h with h | h <;> rw [h] <;> rfl
    exact ⟨InvertedIndex.calculate_bm25_score_of_length_zero _ _ _ _ _ hz,
      InvertedIndex.calculate_tfidf_score_of_length_zero _ _ _ hz⟩
  · by_cases hz : (build_index docs).doc_length d = 0
    · rw [InvertedIndex.calculate_bm25_score_of_length_zero _ _ _ _ _ hz,
        InvertedIndex.calculate_bm25_score_of_length_zero _ _ _ _ _ hz,
        InvertedIndex.calculate_tfidf_score_of_length_zero _ _ _ hz,
        InvertedIndex.calculate_tfidf_score_of_length_zero _ _ _ hz]
      exact ⟨rfl, rfl⟩
    · rw [InvertedIndex.calculate_bm25_score_eq_sum _ _ _ _ _ hz,
        InvertedIndex.calculate_bm25_score_eq_sum _ _ _ _ _ hz,
        InvertedIndex.calculate_tfidf_score_eq_sum _ _ _ hz,
        InvertedIndex.calculate_tfidf_score_eq_sum _ _ _ hz]
      constructor
      · refine (sum_map_filter_of_zero _ _ _ ?_).symm
        intro t ht
        unfold InvertedIndex.bm25Contrib
        rw [if_neg]
        rw [ht]
        simp
      · refine (sum_map_filter_of_zero _ _ _ ?_).symm
        intro t ht
        unfold InvertedIndex.tfidfContrib
        rw [if_neg]
        rw [ht]
        simp
  · intro hz
    have hsome : ∃ Lv, assocGet (build_index docs).doc_lengths d = some Lv ∧ Lv ≠ 0 := by
      unfold InvertedIndex.doc_length at hz
      cases hA : assocGet (build_index docs).doc_lengths d with
      | none => rw [hA] at hz; exact absurd rfl hz
      | some Lv => exact ⟨Lv, rfl, by rw [hA] at hz; exact hz⟩
    obtain ⟨Lv, hA, hLv⟩ := hsome
    have havg : 0 < (build_index docs).avg_doc_length := build_index_avg_pos docs hA hLv
    refine ⟨Nat.cast_ne_zero.mpr hz, ?_, ?_⟩
    · exact_mod_cast ne_of_gt havg
    · intro t ht
      have hdf : (build_index docs).get_document_frequency t ≠ 0 := by
        rcases Option.isSome_iff_exists.mp ht with ⟨ps, hps⟩
        have hmem : (t, ps) ∈ (docs.foldl buildStep (buildInit docs)).1.index := by
          rw [← build_index_index]
          exact assocGet_mem hps
        obtain ⟨-, hne, -⟩ := (build_index_buildOk docs).1 _ hmem
        unfold InvertedIndex.get_document_frequency
        rw [hps]
        simpa using fun hcon => hne (List.length_eq_zero.mp hcon)
      refine ⟨Nat.cast_ne_zero.mpr hdf, ?_⟩
      unfold InvertedIndex.bm25Denominator
      have hLpos : (0:ℝ) < ((build_index docs).doc_length d : ℝ) := by
        exact_mod_cast Nat.pos_of_ne_zero hz
      have havgR : (0:ℝ) < (((build_index docs).avg_doc_length : ℚ) : ℝ) := by
        exact_mod_cast havg
      have hdiv : (0:ℝ) < ((build_index docs).doc_length d : ℝ)
          / (((build_index docs).avg_doc_length : ℚ) : ℝ) := div_pos hLpos havgR
      have htf : (0:ℝ) ≤ ((build_index docs).get_term_frequency t d : ℝ) :=
        Nat.cast_nonneg _
      nlinarith

/-- C9 witness: on the worked corpus, document 99 has no recorded
length and both scorers give it 0; document 0 has nonzero length and
all the divisors the scorers use for it and the indexed term `a` are
nonzero. -/
theorem C9_degenerate_guards_witness :
    (assocGet (build_index docsC1).doc_lengths (PyKey.int 99) = none) ∧
    ((build_index docsC1).calculate_bm25_score ["a"] (PyKey.int 99) 1.5 0.75 = 0 ∧
      (build_index docsC1).calculate_tfidf_score ["a"] (PyKey.int 99) = 0) ∧
    ((build_index docsC1).doc_length (PyKey.int 0) ≠ 0) ∧
    (((build_index docsC1).doc_length (PyKey.int 0) : ℝ) ≠ 0 ∧
      (((build_index docsC1).avg_doc_length : ℚ) : ℝ) ≠ 0 ∧
      ∀ t, (assocGet (build_index docsC1).index t).isSome = true →
        ((build_index docsC1).get_document_frequency t : ℝ) ≠ 0 ∧
        (build_index docsC1).bm25Denominator t (PyKey.int 0) 1.5 0.75 ≠ 0) :=
  ⟨by decide,
    (C9_degenerate_guards docsC1 ["a"] (PyKey.int 99) 1.5 0.75).1 (Or.inl (by decide)),
    by decide,
    (C9_degenerate_guards docsC1 ["a"] (PyKey.int 0) 1.5 0.75).2.2 (by decide)⟩

/-- C10: both scorers add one contribution per query-token occurrence:
on a query consisting of `n ≥ 1` copies of a term, each scorer returns
`n` times its value on the single-occurrence query. -/
theorem C10_repeated_query_term (idx : InvertedIndex) (t : String) (d : PyKey)
    (k1 b : ℝ) (n : ℕ) (_hn : 1 ≤ n) :
    idx.calculate_bm25_score (List.replicate n t) d k1 b
      = (n : ℝ) * idx.calculate_bm25_score [t] d k1 b ∧
    idx.calculate_tfidf_score (List.replicate n t) d
      = (n : ℝ) * idx.calculate_tfidf_score [t] d := by
  by_cases hz : idx.doc_length d = 0
  · rw [InvertedIndex.calculate_bm25_score_of_length_zero _ _ _ _ _ hz,
      InvertedIndex.calculate_bm25_score_of_length_zero _ _ _ _ _ hz,
      InvertedIndex.calculate_tfidf_score_of_length_zero _ _ _ hz,
      InvertedIndex.calculate_tfidf_score_of_length_zero _ _ _ hz]
    exact ⟨by ring, by ring⟩
  · rw [InvertedIndex.calculate_bm25_score_eq_sum _ _ _ _ _ hz,
      InvertedIndex.calculate_bm25_score_eq_sum _ _ _ _ _ hz,
      InvertedIndex.calculate_tfidf_score_eq_sum _ _ _ hz,
      InvertedIndex.calculate_tfidf_score_eq_sum _ _ _ hz]
    rw [List.map_replicate, List.map_replicate, List.sum_replicate, List.sum_replicate]
    constructor <;> simp [nsmul_eq_mul]

/-- C10 witness: on the worked corpus, querying `[a, a]` scores exactly
twice the query `[a]` under both scorers. -/
theorem C10_repeated_query_term_witness :
    1 ≤ 2 ∧
    (idxC1.calculate_bm25_score (List.replicate 2 "a") (PyKey.int 0) 1.5 0.75
      = ((2:ℕ) : ℝ) * idxC1.calculate_bm25_score ["a"] (PyKey.int 0) 1.5 0.75 ∧
    idxC1.calculate_tfidf_score (List.replicate 2 "a") (PyKey.int 0)
      = ((2:ℕ) : ℝ) * idxC1.calculate_tfidf_score ["a"] (PyKey.int 0)) :=
  ⟨by decide, C10_repeated_query_term idxC1 "a" (PyKey.int 0) 1.5 0.75 2 (by decide)⟩

/-- An input record as read by `build_index` before the `doc['id']` and
`doc['tokens']` subscript accesses: either field may be missing. -/
structure RawDoc where
  id : Option Nat
  tokens : Option (List String)
deriving DecidableEq, Repr

/-- The `for doc in documents` loop over raw records: `doc['id']` and
then `doc['tokens']` raise a `KeyError` when the field is missing,
aborting the loop.  The error value carries the message and the
partially mutated object state: in Python the exception propagates and
the caller's `InvertedIndex` object keeps exactly this state. -/
def buildLoop (st : InvertedIndex) (total : Nat) :
    List RawDoc → Except (String × InvertedIndex) (InvertedIndex × Nat)
  | [] => Except.ok (st, total)
  | doc :: rest =>
      match doc.id with
      | none => Except.error ("KeyError: id", st)
      | some did =>
          match doc.tokens with
          | none => Except.error ("KeyError: tokens", st)
          | some toks =>
              buildLoop
                { st with
                    doc_lengths := assocSet st.doc_lengths (PyKey.int did) toks.length,
                    index := toks.foldl
                      (fun ix tok => bumpIndex ix tok (PyKey.int did)) st.index }
                (total + toks.length) rest

/-- `build_index` over raw records: `num_docs` is set to the input
length before the loop; on success `avg_doc_length` is computed, on a
missing field the `KeyError` escapes with the partially built state
(`avg_doc_length` still at its initial 0). -/
def build_index_raw (docs : List RawDoc) : Except (String × InvertedIndex) InvertedIndex :=
  match buildLoop
      { index := [], doc_lengths := [], num_docs := docs.length, avg_doc_length := 0 }
      0 docs with
  | Except.ok (st, total) =>
      Except.ok { st with
        avg_doc_length := if 0 < docs.length then (total : ℚ) / (docs.length : ℚ) else 0 }
  | Except.error e => Except.error e

/-- Splitting the build loop at a list append. -/
theorem buildLoop_append (st : InvertedIndex) (total : Nat) (l1 l2 : List RawDoc) :
    buildLoop st total (l1 ++ l2)
      = match buildLoop st total l1 with
        | Except.ok (st', t') => buildLoop st' t' l2
        | Except.error e => Except.error e := by
  induction l1 generalizing st total with
  | nil => rfl
  | cons doc rest ih =>
      rw [List.cons_append, buildLoop, buildLoop]
      cases doc.id with
      | none => rfl
      | some did =>
          cases doc.tokens with
          | none => rfl
          | some toks => exact ih _ _

/-- The build loop over well-formed records succeeds. -/
theorem buildLoop_ok (st : InvertedIndex) (total : Nat) (l : List RawDoc)
    (h : ∀ r ∈ l, r.id.isSome = true ∧ r.tokens.isSome = true) :
    ∃ st' t', buildLoop st total l = Except.ok (st', t') := by
  induction l generalizing st total with
  | nil => exact ⟨st, total, rfl⟩
  | cons doc rest ih =>
      obtain ⟨hid, htok⟩ := h doc (List.mem_cons_self _ _)
      rcases Option.isSome_iff_exists.mp hid with ⟨did, hdid⟩
      rcases Option.isSome_iff_exists.mp htok with ⟨toks, htoks⟩
      rw [buildLoop, hdid, htoks]
      exact ih _ _ (fun r hr => h r (List.mem_cons_of_mem _ hr))

/-- The build loop never touches `num_docs` or `avg_doc_length`. -/
theorem buildLoop_preserves (l : List RawDoc) (st : InvertedIndex) (total : Nat)
    {st' : InvertedIndex} {t' : Nat} (h : buildLoop st total l = Except.ok (st', t')) :
    st'.num_docs = st.num_docs ∧ st'.avg_doc_length = st.avg_doc_length := by
  induction l generalizing st total with
  | nil =>
      rw [buildLoop] at h
      obtain ⟨rfl, -⟩ := Prod.mk.injEq _ _ _ _ ▸ Except.ok.injEq _ _ ▸ h
      exact ⟨rfl, rfl⟩
  | cons doc rest ih =>
      obtain ⟨oid, otoks⟩ := doc
      cases oid with
      | none => simp [buildLoop] at h
      | some did =>
          cases otoks with
          | none => simp [buildLoop] at h
          | some toks =>
              rw [buildLoop] at h
              have h' : buildLoop
                  { st with
                      doc_lengths := assocSet st.doc_lengths (PyKey.int did) toks.length,
                      index := toks.foldl
                        (fun ix tok => bumpIndex ix tok (PyKey.int did)) st.index }
                  (total + toks.length) rest = Except.ok (st', t') := h
              have hres := ih _ _ h'
              exact hres

/-- C5 counterexample: building from a corpus whose second document
lacks its `tokens` field aborts with a `KeyError` (there is no
SchemaError anywhere in the code), but the abort is not atomic: the
escaping object state still holds the posting and length entry of the
first document and `num_docs` already set to 2 — partially built state
is exposed to the caller. -/
theorem C5_counterexample :
    build_index_raw [RawDoc.mk (some 0) (some ["a"]), RawDoc.mk (some 1) none]
      = Except.error ("KeyError: tokens",
          { index := [("a", [(PyKey.int 0, 1)])],
            doc_lengths := [(PyKey.int 0, 1)],
            num_docs := 2,
            avg_doc_length := 0 }) ∧
    ([("a", [(PyKey.int 0, 1)])] : List (String × Postings)) ≠ [] ∧
    ([(PyKey.int 0, 1)] : List (PyKey × Nat)) ≠ [] := by
  refine ⟨rfl, by decide, by decide⟩

/-- C5 amended: a document missing its `id` or `tokens` field makes the
build fail with a `KeyError` (not a SchemaError) and aborts the loop at
that document, but not atomically: the escaping state is exactly the
state accumulated from the preceding well-formed documents, with
`num_docs` already set to the full input count and `avg_doc_length`
left at 0. -/
theorem C5_build_abort_not_atomic (good : List RawDoc) (bad : RawDoc)
    (rest : List RawDoc)
    (hgood : ∀ r ∈ good, r.id.isSome = true ∧ r.tokens.isSome = true)
    (hbad : bad.id = none ∨ bad.tokens = none) :
    ∃ msg st total,
      buildLoop
        { index := [], doc_lengths := [],
          num_docs := (good ++ bad :: rest).length, avg_doc_length := 0 }
        0 good = Except.ok (st, total) ∧
      build_index_raw (good ++ bad :: rest) = Except.error (msg, st) ∧
      st.num_docs = (good ++ bad :: rest).length ∧
      st.avg_doc_length = 0 := by
  obtain ⟨st, total, hok⟩ := buildLoop_ok
    { index := [], doc_lengths := [],
      num_docs := (good ++ bad :: rest).length, avg_doc_length := 0 }
    0 good hgood
  have hpres := buildLoop_preserves good _ _ hok
  have herr : ∃ msg, buildLoop st total (bad :: rest) = Except.error (msg, st) := by
    obtain ⟨oid, otoks⟩ := bad
    rcases hbad with hb | hb
    · simp only at hb
      rw [hb]
      exact ⟨"KeyError: id", rfl⟩
    · simp only at hb
      rw [hb]
      cases oid with
      | none => exact ⟨"KeyError: id", rfl⟩
      | some did => exact ⟨"KeyError: tokens", rfl⟩
  obtain ⟨msg, hmsg⟩ := herr
  refine ⟨msg, st, total, hok, ?_, hpres.1, hpres.2⟩
  unfold build_index_raw
  rw [buildLoop_append, hok]
  simp only [hmsg]

/-- C5 witness: for the corpus `[{id 0, tokens [a]}, {id 1}]` the loop
over the good prefix succeeds and the whole build aborts with an error
carrying that partial state, whose `num_docs` is 2 and whose
`avg_doc_length` is 0. -/
theorem C5_build_abort_not_atomic_witness :
    (∀ r ∈ [RawDoc.mk (some 0) (some ["a"])],
        r.id.isSome = true ∧ r.tokens.isSome = true) ∧
    ((RawDoc.mk (some 1) none).id = none ∨ (RawDoc.mk (some 1) none).tokens = none) ∧
    (∃ msg st total,
      buildLoop
        { index := [], doc_lengths := [],
          num_docs := ([RawDoc.mk (some 0) (some ["a"])]
            ++ RawDoc.mk (some 1) none :: []).length, avg_doc_length := 0 }
        0 [RawDoc.mk (some 0) (some ["a"])] = Except.ok (st, total) ∧
      build_index_raw ([RawDoc.mk (some 0) (some ["a"])]
          ++ RawDoc.mk (some 1) none :: []) = Except.error (msg, st) ∧
      st.num_docs = ([RawDoc.mk (some 0) (some ["a"])]
          ++ RawDoc.mk (some 1) none :: []).length ∧
      st.avg_doc_length = 0) :=
  ⟨by decide, Or.inr rfl,
    C5_build_abort_not_atomic [RawDoc.mk (some 0) (some ["a"])]
      (RawDoc.mk (some 1) none) [] (by decide) (Or.inr rfl)⟩

/-- The candidate documents of a query: the union, over the query terms
present in the index, of the document ids of their postings.  The
Python code collects them into an unordered `set`; this list fixes the
first-occurrence enumeration, and the retrieval model below accepts any
permutation of it as the set's iteration order. -/
def candidateList (idx : InvertedIndex) (q : List String) : List PyKey :=
  (q.foldl (fun acc t =>
    match assocGet idx.index t with
    | some ps => acc ++ ps.map Prod.fst
    | none => acc) []).dedup

/-- `search` (BM25, default `k1=1.5, b=0.75`), parameterized by the
iteration order `cands` of the candidate set: score every candidate,
keep the strictly positive scores, stable-sort by score descending
(Python `list.sort` is stable), and truncate to `top_k`. -/
noncomputable def searchOrd (idx : InvertedIndex) (q : List String) (top_k : Nat)
    (cands : List PyKey) : List (PyKey × ℝ) :=
  ((cands.filterMap (fun d =>
      if 0 < idx.calculate_bm25_score q d 1.5 0.75
      then some (d, idx.calculate_bm25_score q d 1.5 0.75) else none)).mergeSort
    (fun a b => decide (b.2 ≤ a.2))).take top_k

/-- `search_tfidf`, parameterized by the iteration order `cands` of the
candidate set, with the same keep-positive, stable descending sort and
`top_k` truncation. -/
noncomputable def search_tfidfOrd (idx : InvertedIndex) (q : List String) (top_k : Nat)
    (cands : List PyKey) : List (PyKey × ℝ) :=
  ((cands.filterMap (fun d =>
      if 0 < idx.calculate_tfidf_score q d
      then some (d, idx.calculate_tfidf_score q d) else none)).mergeSort
    (fun a b => decide (b.2 ≤ a.2))).take top_k

/-- The length of a `filterMap` counts the elements the function keeps. -/
theorem length_filterMap_eq_countP {α β : Type} (f : α → Option β) (l : List α) :
    (l.filterMap f).length = l.countP (fun a => (f a).isSome) := by
  induction l with
  | nil => rfl
  | cons a l ih =>
      rw [List.filterMap_cons, List.countP_cons]
      cases hf : f a with
      | none => simp [hf, ih]
      | some b => simp [hf, ih]

/-- What it means for a ranked result list to satisfy the retrieval
contract for candidate set `cset`, scorer `score` and cut-off `top_k`:
only candidates with their exact, strictly positive score; sorted by
score descending; as many entries as positive-scoring candidates, capped
at `top_k`; and when no truncation happens, every positive-scoring
candidate is listed. -/
def SearchSpec (cset : List PyKey) (score : PyKey → ℝ) (top_k : Nat)
    (out : List (PyKey × ℝ)) : Prop :=
  (∀ p ∈ out, p.1 ∈ cset ∧ p.2 = score p.1 ∧ 0 < p.2) ∧
  List.Pairwise (fun a b : PyKey × ℝ => b.2 ≤ a.2) out ∧
  out.length = min top_k (cset.countP (fun d => decide (0 < score d))) ∧
  (cset.countP (fun d => decide (0 < score d)) ≤ top_k →
    ∀ d ∈ cset, 0 < score d → d ∈ out.map Prod.fst)

/-- The keep-positive, stable-sort, truncate pipeline satisfies the
retrieval contract for any enumeration of the candidate set. -/
theorem rank_pipeline_spec (score : PyKey → ℝ) (cset cands : List PyKey) (top_k : Nat)
    (hperm : cands.Perm cset) :
    SearchSpec cset score top_k
      (((cands.filterMap (fun d =>
          if 0 < score d then some (d, score d) else none)).mergeSort
        (fun a b => decide (b.2 ≤ a.2))).take top_k) := by
  set f : PyKey → Option (PyKey × ℝ) :=
    fun d => if 0 < score d then some (d, score d) else none with hf
  set scores := cands.filterMap f with hscores
  set sorted := scores.mergeSort (fun a b => decide (b.2 ≤ a.2)) with hsorted
  have hmemf : ∀ p : PyKey × ℝ, p ∈ scores → p.1 ∈ cands ∧ p.2 = score p.1 ∧ 0 < p.2 := by
    intro p hp
    rcases List.mem_filterMap.mp hp with ⟨d, hd, hfd⟩
    simp only [hf] at hfd
    by_cases hpos : 0 < score d
    · rw [if_pos hpos] at hfd
      obtain rfl := Option.some_inj.mp hfd
      exact ⟨hd, rfl, hpos⟩
    · rw [if_neg hpos] at hfd
      cases hfd
  have hsortperm : sorted.Perm scores := List.mergeSort_perm scores _
  have hlenscores : scores.length = cset.countP (fun d => decide (0 < score d)) := by
    rw [hscores, length_filterMap_eq_countP]
    rw [← hperm.countP_eq]
    refine List.countP_congr ?_
    intro d hd
    simp only [hf]
    by_cases hpos : 0 < score d
    · simp [if_pos hpos, hpos]
    · simp [if_neg hpos, hpos]
  refine ⟨?_, ?_, ?_, ?_⟩
  · intro p hp
    have hp' : p ∈ sorted := List.mem_of_mem_take hp
    have hp'' : p ∈ scores := hsortperm.mem_iff.mp hp'
    obtain ⟨h1, h2, h3⟩ := hmemf p hp''
    exact ⟨hperm.mem_iff.mp h1, h2, h3⟩
  · have htrans : ∀ a b c : PyKey × ℝ,
        decide (b.2 ≤ a.2) = true → decide (c.2 ≤ b.2) = true →
          decide (c.2 ≤ a.2) = true := by
      intro a b c h1 h2
      rw [decide_eq_true_eq] at h1 h2 ⊢
      exact le_trans h2 h1
    have htotal : ∀ a b : PyKey × ℝ,
        (decide (b.2 ≤ a.2) || decide (a.2 ≤ b.2)) = true := by
      intro a b
      rcases le_total a.2 b.2 with h | h <;> simp [h]
    have hsort := List.sorted_mergeSort htrans htotal scores
    rw [← hsorted] at hsort
    have hsort' : List.Pairwise (fun a b : PyKey × ℝ => b.2 ≤ a.2) sorted :=
      hsort.imp (fun h => of_decide_eq_true h)
    exact hsort'.sublist (List.take_sublist _ _)
  · rw [List.length_take, hsortperm.length_eq, hlenscores]
  · intro hle d hd hpos
    have hdc : d ∈ cands := hperm.mem_iff.mpr hd
    have hmem : (d, score d) ∈ scores := by
      refine List.mem_filterMap.mpr ⟨d, hdc, ?_⟩
      simp only [hf]
      exact if_pos hpos
    have hmem' : (d, score d) ∈ sorted := hsortperm.mem_iff.mpr hmem
    have hall : sorted.take top_k = sorted := by
      refine List.take_of_length_le ?_
      rw [hsortperm.length_eq, hlenscores]
      exact hle
    rw [hall]
    exact List.mem_map.mpr ⟨(d, score d), hmem', rfl⟩

/-- C3: for every index, query, positive `top_k` and enumeration of the
candidate set (the union of the postings of the query terms present in
the index), `search` (BM25) and `search_tfidf` return exactly the
candidates with strictly positive score, with their scores, sorted by
score descending, truncated to at most `top_k` (all of them when fewer
remain); an empty query — whose candidate set is empty — yields `[]`,
not an error. -/
theorem C3_search_contract (idx : InvertedIndex) (q : List String) (top_k : Nat)
    (cands : List PyKey) (_hk : 0 < top_k)
    (hperm : cands.Perm (candidateList idx q)) :
    SearchSpec (candidateList idx q)
        (fun d => idx.calculate_bm25_score q d 1.5 0.75) top_k
        (searchOrd idx q top_k cands) ∧
    SearchSpec (candidateList idx q)
        (fun d => idx.calculate_tfidf_score q d) top_k
        (search_tfidfOrd idx q top_k cands) ∧
    (q = [] → searchOrd idx q top_k cands = [] ∧ search_tfidfOrd idx q top_k cands = []) := by
  refine ⟨?_, ?_, ?_⟩
  · exact rank_pipeline_spec _ _ _ _ hperm
  · exact rank_pipeline_spec _ _ _ _ hperm
  · intro hq
    subst hq
    have hc : cands = [] := by
      have hnil : candidateList idx [] = [] := rfl
      rw [hnil] at hperm
      exact hperm.eq_nil
    subst hc
    constructor
    · simp [searchOrd]
    · simp [search_tfidfOrd]

/-- C3 witness: on the worked corpus and query `[a]` with `top_k = 10`
and candidate enumeration `[0, 2]`, both retrieval functions satisfy
the contract. -/
theorem C3_search_contract_witness :
    0 < 10 ∧
    [PyKey.int 0, PyKey.int 2].Perm (candidateList idxC1 ["a"]) ∧
    (SearchSpec (candidateList idxC1 ["a"])
        (fun d => idxC1.calculate_bm25_score ["a"] d 1.5 0.75) 10
        (searchOrd idxC1 ["a"] 10 [PyKey.int 0, PyKey.int 2]) ∧
      SearchSpec (candidateList idxC1 ["a"])
        (fun d => idxC1.calculate_tfidf_score ["a"] d) 10
        (search_tfidfOrd idxC1 ["a"] 10 [PyKey.int 0, PyKey.int 2]) ∧
      (["a"] = ([] : List String) →
        searchOrd idxC1 ["a"] 10 [PyKey.int 0, PyKey.int 2] = [] ∧
        search_tfidfOrd idxC1 ["a"] 10 [PyKey.int 0, PyKey.int 2] = [])) :=
  ⟨by decide, by decide,
    C3_search_contract idxC1 ["a"] 10 [PyKey.int 0, PyKey.int 2] (by decide) (by decide)⟩

/-- A corpus with two documents tied on the query `[a]` (docs 0 and 8,
each exactly the token `a`) plus a third unrelated document. -/
def docsC4 : List Document := [⟨0, ["a"]⟩, ⟨8, ["a"]⟩, ⟨5, ["b"]⟩]

/-- The index built from the tie corpus. -/
def idxC4 : InvertedIndex := build_index docsC4

/-- The tie corpus has average document length 1. -/
theorem idxC4_avg : idxC4.avg_doc_length = 1 := by
  have h : idxC4.avg_doc_length = ((3:ℕ):ℚ)/((3:ℕ):ℚ) := rfl
  rw [h]; norm_num

/-- Document 0 of the tie corpus scores `ln 1.6` under BM25 for `[a]`. -/
theorem idxC4_bm25_0 :
    idxC4.calculate_bm25_score ["a"] (PyKey.int 0) 1.5 0.75 = Real.log 1.6 := by
  rw [InvertedIndex.calculate_bm25_score_eq_sum _ _ _ _ _ (by decide)]
  simp only [List.map_cons, List.map_nil, List.sum_cons, List.sum_nil, add_zero]
  have h1 : (assocGet idxC4.index "a").isSome = true := by decide
  have h2 : idxC4.get_term_frequency "a" (PyKey.int 0) = 1 := by decide
  have h3 : idxC4.doc_length (PyKey.int 0) = 1 := by decide
  have h4 : idxC4.get_document_frequency "a" = 2 := by decide
  have h5 : idxC4.num_docs = 3 := by decide
  simp only [InvertedIndex.bm25Contrib, InvertedIndex.bm25Denominator,
    InvertedIndex.calculate_idf, h1, h2, h3, h4, h5, idxC4_avg, if_true]
  push_cast
  norm_num

/-- Document 8 of the tie corpus scores `ln 1.6` under BM25 for `[a]`. -/
theorem idxC4_bm25_8 :
    idxC4.calculate_bm25_score ["a"] (PyKey.int 8) 1.5 0.75 = Real.log 1.6 := by
  rw [InvertedIndex.calculate_bm25_score_eq_sum _ _ _ _ _ (by decide)]
  simp only [List.map_cons, List.map_nil, List.sum_cons, List.sum_nil, add_zero]
  have h1 : (assocGet idxC4.index "a").isSome = true := by decide
  have h2 : idxC4.get_term_frequency "a" (PyKey.int 8) = 1 := by decide
  have h3 : idxC4.doc_length (PyKey.int 8) = 1 := by decide
  have h4 : idxC4.get_document_frequency "a" = 2 := by decide
  have h5 : idxC4.num_docs = 3 := by decide
  simp only [InvertedIndex.bm25Contrib, InvertedIndex.bm25Denominator,
    InvertedIndex.calculate_idf, h1, h2, h3, h4, h5, idxC4_avg, if_true]
  push_cast
  norm_num

/-- Document 0 of the tie corpus scores `ln (3/2)` under TF-IDF for `[a]`. -/
theorem idxC4_tfidf_0 :
    idxC4.calculate_tfidf_score ["a"] (PyKey.int 0) = Real.log (3/2) := by
  rw [InvertedIndex.calculate_tfidf_score_eq_sum _ _ _ (by decide)]
  simp only [List.map_cons, List.map_nil, List.sum_cons, List.sum_nil, add_zero]
  have h1 : (assocGet idxC4.index "a").isSome = true := by decide
  have h2 : idxC4.get_term_frequency "a" (PyKey.int 0) = 1 := by decide
  have h3 : idxC4.doc_length (PyKey.int 0) = 1 := by decide
  have h4 : idxC4.get_document_frequency "a" = 2 := by decide
  have h5 : idxC4.num_docs = 3 := by decide
  simp only [InvertedIndex.tfidfContrib, h1, h2, h3, h4, h5, if_true]
  norm_num

/-- Document 8 of the tie corpus scores `ln (3/2)` under TF-IDF for `[a]`. -/
theorem idxC4_tfidf_8 :
    idxC4.calculate_tfidf_score ["a"] (PyKey.int 8) = Real.log (3/2) := by
  rw [InvertedIndex.calculate_tfidf_score_eq_sum _ _ _ (by decide)]
  simp only [List.map_cons, List.map_nil, List.sum_cons, List.sum_nil, add_zero]
  have h1 : (assocGet idxC4.index "a").isSome = true := by decide
  have h2 : idxC4.get_term_frequency "a" (PyKey.int 8) = 1 := by decide
  have h3 : idxC4.doc_length (PyKey.int 8) = 1 := by decide
  have h4 : idxC4.get_document_frequency "a" = 2 := by decide
  have h5 : idxC4.num_docs = 3 := by decide
  simp only [InvertedIndex.tfidfContrib, h1, h2, h3, h4, h5, if_true]
  norm_num

/-- When every candidate has the same strictly positive score, the
keep-positive stable sort is the identity: the pipeline returns the
candidates in enumeration order, each paired with the common score. -/
theorem rank_pipeline_ties (score : PyKey → ℝ) (cands : List PyKey) (top_k : Nat)
    (s : ℝ) (hs : 0 < s) (hall : ∀ d ∈ cands, score d = s) :
    ((cands.filterMap (fun d =>
        if 0 < score d then some (d, score d) else none)).mergeSort
      (fun a b => decide (b.2 ≤ a.2))).take top_k
      = (cands.map (fun d => (d, s))).take top_k := by
  have hfm : ∀ l : List PyKey, (∀ d ∈ l, score d = s) →
      l.filterMap (fun d => if 0 < score d then some (d, score d) else none)
        = l.map (fun d => (d, s)) := by
    intro l
    induction l with
    | nil => intro; rfl
    | cons d t ih =>
        intro hl
        rw [List.filterMap_cons]
        have hd : score d = s := hl d (List.mem_cons_self _ _)
        simp only [hd, if_pos hs]
        rw [List.map_cons, ih (fun d hd' => hl d (List.mem_cons_of_mem _ hd'))]
  rw [hfm cands hall]
  have hsorted : List.Pairwise
      (fun a b : PyKey × ℝ => decide (b.2 ≤ a.2) = true)
      (cands.map (fun d => (d, s))) := by
    refine List.pairwise_map.mpr (List.pairwise_of_forall ?_)
    intro a b
    simp
  rw [List.mergeSort_of_sorted hsorted]

/-- C4 counterexample: on the tie corpus (docs 0 and 8 tie on query
`[a]`), two valid enumerations of the same candidate set make `search`
return differently ordered lists; in particular the enumeration
`[8, 0]` yields the tied documents in descending id order, so the tie
order is neither run-independent nor the ascending-document-id order
the claim asserts. -/
theorem C4_counterexample :
    [PyKey.int 0, PyKey.int 8].Perm (candidateList idxC4 ["a"]) ∧
    [PyKey.int 8, PyKey.int 0].Perm (candidateList idxC4 ["a"]) ∧
    searchOrd idxC4 ["a"] 10 [PyKey.int 0, PyKey.int 8]
      = [(PyKey.int 0, Real.log 1.6), (PyKey.int 8, Real.log 1.6)] ∧
    searchOrd idxC4 ["a"] 10 [PyKey.int 8, PyKey.int 0]
      = [(PyKey.int 8, Real.log 1.6), (PyKey.int 0, Real.log 1.6)] ∧
    searchOrd idxC4 ["a"] 10 [PyKey.int 0, PyKey.int 8]
      ≠ searchOrd idxC4 ["a"] 10 [PyKey.int 8, PyKey.int 0] := by
  have hpos : (0:ℝ) < Real.log 1.6 := Real.log_pos (by norm_num)
  have hall1 : ∀ d ∈ ([PyKey.int 0, PyKey.int 8] : List PyKey),
      idxC4.calculate_bm25_score ["a"] d 1.5 0.75 = Real.log 1.6 := by
    intro d hd
    rcases List.mem_cons.mp hd with rfl | hd
    · exact idxC4_bm25_0
    · rw [List.mem_singleton.mp hd]
      exact idxC4_bm25_8
  have hall2 : ∀ d ∈ ([PyKey.int 8, PyKey.int 0] : List PyKey),
      idxC4.calculate_bm25_score ["a"] d 1.5 0.75 = Real.log 1.6 := by
    intro d hd
    rcases List.mem_cons.mp hd with rfl | hd
    · exact idxC4_bm25_8
    · rw [List.mem_singleton.mp hd]
      exact idxC4_bm25_0
  have h1 : searchOrd idxC4 ["a"] 10 [PyKey.int 0, PyKey.int 8]
      = [(PyKey.int 0, Real.log 1.6), (PyKey.int 8, Real.log 1.6)] := by
    have h := rank_pipeline_ties
      (fun d => idxC4.calculate_bm25_score ["a"] d 1.5 0.75)
      [PyKey.int 0, PyKey.int 8] 10 (Real.log 1.6) hpos hall1
    simpa using h
  have h2 : searchOrd idxC4 ["a"] 10 [PyKey.int 8, PyKey.int 0]
      = [(PyKey.int 8, Real.log 1.6), (PyKey.int 0, Real.log 1.6)] := by
    have h := rank_pipeline_ties
      (fun d => idxC4.calculate_bm25_score ["a"] d 1.5 0.75)
      [PyKey.int 8, PyKey.int 0] 10 (Real.log 1.6) hpos hall2
    simpa using h
  refine ⟨by decide, by decide, h1, h2, ?_⟩
  rw [h1, h2]
  intro heq
  have hh := List.head_eq_of_cons_eq heq
  rw [Prod.mk.injEq] at hh
  exact absurd hh.1 (by decide)

/-- C4 amended: `search` and `search_tfidf` are deterministic only as
functions of the index, query, `top_k` AND the enumeration order of the
unordered candidate set; the sort being stable, candidates with equal
scores appear in the candidate set's enumeration order — not in a
documented ascending-document-id order — so two runs that enumerate the
set differently can return differently ordered lists. -/
theorem C4_tie_break_enumeration_order (idx : InvertedIndex) (q : List String)
    (top_k : Nat) (cands : List PyKey) :
    (∀ s : ℝ, 0 < s →
      (∀ d ∈ cands, idx.calculate_bm25_score q d 1.5 0.75 = s) →
      searchOrd idx q top_k cands = (cands.map (fun d => (d, s))).take top_k) ∧
    (∀ s : ℝ, 0 < s →
      (∀ d ∈ cands, idx.calculate_tfidf_score q d = s) →
      search_tfidfOrd idx q top_k cands = (cands.map (fun d => (d, s))).take top_k) := by
  constructor
  · intro s hs hall
    exact rank_pipeline_ties _ _ _ _ hs hall
  · intro s hs hall
    exact rank_pipeline_ties _ _ _ _ hs hall

/-- C4 witness: on the tie corpus with the enumeration `[8, 0]` of the
candidate set, both retrieval functions return the tied documents in
exactly that enumeration order with their common scores. -/
theorem C4_tie_break_enumeration_order_witness :
    (0:ℝ) < Real.log 1.6 ∧
    (∀ d ∈ ([PyKey.int 8, PyKey.int 0] : List PyKey),
        idxC4.calculate_bm25_score ["a"] d 1.5 0.75 = Real.log 1.6) ∧
    searchOrd idxC4 ["a"] 10 [PyKey.int 8, PyKey.int 0]
      = (([PyKey.int 8, PyKey.int 0] : List PyKey).map
          (fun d => (d, Real.log 1.6))).take 10 ∧
    (0:ℝ) < Real.log (3/2) ∧
    (∀ d ∈ ([PyKey.int 8, PyKey.int 0] : List PyKey),
        idxC4.calculate_tfidf_score ["a"] d = Real.log (3/2)) ∧
    search_tfidfOrd idxC4 ["a"] 10 [PyKey.int 8, PyKey.int 0]
      = (([PyKey.int 8, PyKey.int 0] : List PyKey).map
          (fun d => (d, Real.log (3/2)))).take 10 := by
  have hpos1 : (0:ℝ) < Real.log 1.6 := Real.log_pos (by norm_num)
  have hpos2 : (0:ℝ) < Real.log (3/2) := Real.log_pos (by norm_num)
  have hall1 : ∀ d ∈ ([PyKey.int 8, PyKey.int 0] : List PyKey),
      idxC4.calculate_bm25_score ["a"] d 1.5 0.75 = Real.log 1.6 := by
    intro d hd
    rcases List.mem_cons.mp hd with rfl | hd
    · exact idxC4_bm25_8
    · rw [List.mem_singleton.mp hd]
      exact idxC4_bm25_0
  have hall2 : ∀ d ∈ ([PyKey.int 8, PyKey.int 0] : List PyKey),
      idxC4.calculate_tfidf_score ["a"] d = Real.log (3/2) := by
    intro d hd
    rcases List.mem_cons.mp hd with rfl | hd
    · exact idxC4_tfidf_8
    · rw [List.mem_singleton.mp hd]
      exact idxC4_tfidf_0
  exact ⟨hpos1, hall1,
    (C4_tie_break_enumeration_order idxC4 ["a"] 10 [PyKey.int 8, PyKey.int 0]).1
      (Real.log 1.6) hpos1 hall1,
    hpos2, hall2,
    (C4_tie_break_enumeration_order idxC4 ["a"] 10 [PyKey.int 8, PyKey.int 0]).2
      (Real.log (3/2)) hpos2 hall2⟩

/-- `common_docs` of `calculate_ranking_statistics`: the document ids
present in both ranked lists.  The Python code materializes
`list(set(A) & set(B))` in unspecified order; this definition fixes the
A-order, and the correlation model below accepts any permutation. -/
def commonDocs (A B : List PyKey) : List PyKey :=
  A.filter (fun d => decide (d ∈ B))

/-- `scipy.stats.rankdata` on untied data: the 1-based rank of a value
among a list, i.e. one more than the number of strictly smaller
entries. -/
def rankOf (xs : List ℕ) (v : ℕ) : ℕ :=
  xs.countP (fun u => decide (u < v)) + 1

/-- The rank vector of a list of distinct values. -/
def ranksOf (xs : List ℕ) : List ℕ :=
  xs.map (rankOf xs)

/-- The Pearson product-moment correlation of two equal-length real
vectors, as `scipy` computes it inside `spearmanr`: covariance about
the means over the product of the standard deviations. -/
noncomputable def pearson (xs ys : List ℝ) : ℝ :=
  ((xs.zip ys).map
      (fun p => (p.1 - xs.sum / xs.length) * (p.2 - ys.sum / ys.length))).sum /
    (Real.sqrt ((xs.map (fun x => (x - xs.sum / xs.length)^2)).sum) *
      Real.sqrt ((ys.map (fun y => (y - ys.sum / ys.length)^2)).sum))

/-- `scipy.stats.spearmanr` on two vectors of distinct values: the
Pearson correlation of their rank vectors. -/
noncomputable def spearman_scipy (xs ys : List ℕ) : ℝ :=
  pearson ((ranksOf xs).map (fun k : ℕ => (k : ℝ))) ((ranksOf ys).map (fun k : ℕ => (k : ℝ)))

/-- The `rank_correlation` field computed by
`calculate_ranking_statistics`, parameterized by the enumeration
`common` of the id intersection: 0 when the overlap is empty (the code
initializes `rank_correlation = 0` and skips `spearmanr`); `none`
(scipy's nan, "undefined") when exactly one id overlaps; otherwise
`spearmanr` applied to each list's own 0-based rank positions of the
common ids. -/
noncomputable def rank_correlation (A B common : List PyKey) : Option ℝ :=
  if common.isEmpty then some 0
  else if common.length < 2 then none
  else some (spearman_scipy
    (common.map (fun d => A.indexOf d)) (common.map (fun d => B.indexOf d)))

/-- Modelled from the spec's words: the textbook Spearman rank
correlation over the intersecting document ids, computed from each
list's own 0-based rank positions for those ids via the untied-data
closed form `rho = 1 - 6·Σ d_i² / (n·(n² - 1))`, where `d_i` is the
difference of the two rank vectors. -/
noncomputable def spearman_spec (A B common : List PyKey) : ℝ :=
  let xs := common.map (fun d => A.indexOf d)
  let ys := common.map (fun d => B.indexOf d)
  let dsq := ((xs.zip ys).map
    (fun p => ((rankOf xs p.1 : ℝ) - (rankOf ys p.2 : ℝ))^2)).sum
  1 - 6 * dsq / ((common.length : ℝ) * ((common.length : ℝ)^2 - 1))

/-- Rank within a list only depends on the multiset of its entries. -/
theorem rankOf_congr {xs xs' : List ℕ} (h : xs.Perm xs') (v : ℕ) :
    rankOf xs v = rankOf xs' v := by
  unfold rankOf
  rw [h.countP_eq]

/-- On a strictly sorted list the rank vector is `[1, …, n]`. -/
theorem ranksOf_sorted {xs : List ℕ} (h : List.Pairwise (· < ·) xs) :
    ranksOf xs = List.range' 1 xs.length := by
  induction xs with
  | nil => rfl
  | cons x t ih =>
      obtain ⟨hhead, htail⟩ := List.pairwise_cons.mp h
      have hx : rankOf (x :: t) x = 1 := by
        unfold rankOf
        have hz : (x :: t).countP (fun u => decide (u < x)) = 0 := by
          rw [List.countP_eq_zero]
          intro a ha
          rcases List.mem_cons.mp ha with rfl | ha
          · simp
          · simp only [decide_eq_true_eq]
            exact fun hlt => absurd (hhead a ha) (not_lt.mpr (le_of_lt hlt))
        rw [hz]
      have hy : ∀ y ∈ t, rankOf (x :: t) y = rankOf t y + 1 := by
        intro y hyt
        unfold rankOf
        rw [List.countP_cons]
        have : decide (x < y) = true := decide_eq_true (hhead y hyt)
        rw [this]
        simp
      unfold ranksOf
      rw [List.map_cons, hx]
      have hmap : t.map (rankOf (x :: t)) = t.map (fun y => rankOf t y + 1) :=
        List.map_congr_left hy
      rw [hmap]
      have hmap2 : t.map (fun y => rankOf t y + 1)
          = (t.map (rankOf t)).map (fun k => 1 + k) := by
        rw [List.map_map]
        exact List.map_congr_left (fun a _ => (Nat.add_comm _ 1))
      rw [hmap2]
      have hranks : t.map (rankOf t) = List.range' 1 t.length := ih htail
      rw [hranks, List.map_add_range']
      rw [List.length_cons, List.range'_succ]

/-- The rank vector of a duplicate-free list is a permutation of
`[1, …, n]`. -/
theorem ranksOf_perm_range' {xs : List ℕ} (h : xs.Nodup) :
    (ranksOf xs).Perm (List.range' 1 xs.length) := by
  set sorted := xs.mergeSort (fun a b => decide (a ≤ b)) with hsorted
  have hperm : sorted.Perm xs := List.mergeSort_perm xs _
  have hnd : sorted.Nodup := (hperm.nodup_iff).mpr h
  have hsort : List.Pairwise (fun a b : ℕ => decide (a ≤ b) = true) sorted := by
    refine List.sorted_mergeSort ?_ ?_ xs
    · intro a b c h1 h2
      rw [decide_eq_true_eq] at h1 h2 ⊢
      exact le_trans h1 h2
    · intro a b
      rcases le_total a b with hab | hab <;> simp [hab]
  have hlt : List.Pairwise (· < ·) sorted := by
    have hle : List.Pairwise (· ≤ ·) sorted :=
      hsort.imp (fun hab => of_decide_eq_true hab)
    exact (hle.and hnd).imp (fun hab => lt_of_le_of_ne hab.1 hab.2)
  have h1 : ranksOf xs = xs.map (rankOf sorted) :=
    List.map_congr_left (fun a _ => rankOf_congr hperm.symm a)
  have h2 : (xs.map (rankOf sorted)).Perm (sorted.map (rankOf sorted)) :=
    (hperm.map (rankOf sorted)).symm
  have h3 : sorted.map (rankOf sorted) = List.range' 1 xs.length := by
    have := ranksOf_sorted hlt
    unfold ranksOf at this
    rw [this, hperm.length_eq]
  rw [h1]
  rw [h3] at h2
  exact h2

/-- Gauss sum: `1 + 2 + ⋯ + n = n(n+1)/2`, over the reals. -/
theorem sum_range'_cast (n : ℕ) :
    (((List.range' 1 n).map (fun k : ℕ => (k : ℝ))).sum) = n * (n + 1) / 2 := by
  induction n with
  | zero => simp
  | succ m ih =>
      rw [List.range'_concat, List.map_append, List.sum_append, ih]
      push_cast
      simp
      ring

/-- Sum of squares: `1² + 2² + ⋯ + n² = n(n+1)(2n+1)/6`, over the reals. -/
theorem sum_range'_sq_cast (n : ℕ) :
    (((List.range' 1 n).map (fun k : ℕ => ((k : ℝ))^2)).sum)
      = n * (n + 1) * (2 * n + 1) / 6 := by
  induction n with
  | zero => simp
  | succ m ih =>
      rw [List.range'_concat, List.map_append, List.sum_append, ih]
      push_cast
      simp
      ring

/-- Expansion of a sum of squared deviations. -/
theorem sum_sub_sq (l : List ℝ) (c : ℝ) :
    (l.map (fun x => (x - c)^2)).sum
      = (l.map (fun x => x^2)).sum - 2 * c * l.sum + l.length * c^2 := by
  induction l with
  | nil => simp
  | cons x t ih =>
      simp only [List.map_cons, List.sum_cons, ih, List.length_cons]
      push_cast
      ring

/-- Expansion of a sum of products of deviations over zipped lists. -/
theorem sum_zip_mul_sub (xs : List ℝ) (a b : ℝ) :
    ∀ ys : List ℝ, xs.length = ys.length →
    ((xs.zip ys).map (fun p => (p.1 - a) * (p.2 - b))).sum
      = ((xs.zip ys).map (fun p => p.1 * p.2)).sum
        - b * xs.sum - a * ys.sum + xs.length * a * b := by
  induction xs with
  | nil =>
      intro ys h
      have : ys = [] := List.length_eq_zero.mp h.symm
      subst this
      simp
  | cons x t ih =>
      intro ys h
      cases ys with
      | nil => cases h
      | cons y t' =>
          simp only [List.length_cons, Nat.succ.injEq] at h
          simp only [List.zip_cons_cons, List.map_cons, List.sum_cons, ih t' h,
            List.length_cons]
          push_cast
          ring

/-- A sum of squared differences over zipped lists in terms of the sums
of squares and of products. -/
theorem sum_zip_sub_sq (xs : List ℝ) :
    ∀ ys : List ℝ, xs.length = ys.length →
    ((xs.zip ys).map (fun p => (p.1 - p.2)^2)).sum
      = (xs.map (fun x => x^2)).sum + (ys.map (fun y => y^2)).sum
        - 2 * ((xs.zip ys).map (fun p => p.1 * p.2)).sum := by
  induction xs with
  | nil =>
      intro ys h
      have : ys = [] := List.length_eq_zero.mp h.symm
      subst this
      simp
  | cons x t ih =>
      intro ys h
      cases ys with
      | nil => cases h
      | cons y t' =>
          simp only [List.length_cons, Nat.succ.injEq] at h
          simp only [List.zip_cons_cons, List.map_cons, List.sum_cons, ih t' h]
          ring

/-- The scipy computation (Pearson correlation of the rank vectors)
equals the textbook untied-data Spearman closed form
`1 - 6·Σd²/(n(n²-1))` on duplicate-free equal-length vectors with at
least two entries. -/
theorem spearman_scipy_eq (xs ys : List ℕ) (hx : xs.Nodup) (hy : ys.Nodup)
    (hlen : xs.length = ys.length) (hn : 2 ≤ xs.length) :
    spearman_scipy xs ys
      = 1 - 6 * (((xs.zip ys).map
          (fun p => ((rankOf xs p.1 : ℝ) - (rankOf ys p.2 : ℝ))^2)).sum)
        / ((xs.length : ℝ) * ((xs.length : ℝ)^2 - 1)) := by
  unfold spearman_scipy
  set n := xs.length with hndef
  set r := (ranksOf xs).map (fun k : ℕ => (k : ℝ)) with hr
  set s := (ranksOf ys).map (fun k : ℕ => (k : ℝ)) with hs
  have hn2 : (2:ℝ) ≤ (n:ℝ) := by exact_mod_cast hn
  have hnpos : (0:ℝ) < (n:ℝ) := by linarith
  have hnne : (n:ℝ) ≠ 0 := ne_of_gt hnpos
  have hrlen : r.length = n := by simp [hr, ranksOf]
  have hslen : s.length = n := by simp [hs, ranksOf, ← hlen]
  have hlen' : r.length = s.length := by rw [hrlen, hslen]
  have hrperm : r.Perm ((List.range' 1 n).map (fun k : ℕ => (k : ℝ))) :=
    (ranksOf_perm_range' hx).map _
  have hsperm : s.Perm ((List.range' 1 n).map (fun k : ℕ => (k : ℝ))) := by
    have h := (ranksOf_perm_range' hy).map (fun k : ℕ => (k : ℝ))
    rw [← hlen] at h
    exact h
  have hrsum : r.sum = (n:ℝ) * ((n:ℝ) + 1) / 2 :=
    hrperm.sum_eq.trans (sum_range'_cast n)
  have hssum : s.sum = (n:ℝ) * ((n:ℝ) + 1) / 2 :=
    hsperm.sum_eq.trans (sum_range'_cast n)
  have hsq : ∀ l : List ℝ, l.Perm ((List.range' 1 n).map (fun k : ℕ => (k : ℝ))) →
      (l.map (fun x => x^2)).sum = (n:ℝ) * ((n:ℝ) + 1) * (2*(n:ℝ) + 1) / 6 := by
    intro l hl
    have h := (hl.map (fun x => x^2)).sum_eq
    rw [h, List.map_map]
    have hcomp : ((fun x : ℝ => x^2) ∘ (fun k : ℕ => (k : ℝ)))
        = fun k : ℕ => ((k : ℝ))^2 := rfl
    rw [hcomp, sum_range'_sq_cast]
  have hrsq := hsq r hrperm
  have hssq := hsq s hsperm
  have hc : r.sum / (r.length : ℝ) = ((n:ℝ) + 1) / 2 := by
    rw [hrsum, hrlen]
    field_simp
    ring
  have hcs : s.sum / (s.length : ℝ) = ((n:ℝ) + 1) / 2 := by
    rw [hssum, hslen]
    field_simp
    ring
  have hV : (r.map (fun x => (x - ((n:ℝ) + 1) / 2)^2)).sum
      = (n:ℝ) * ((n:ℝ)^2 - 1) / 12 := by
    rw [sum_sub_sq, hrsq, hrsum, hrlen]
    ring
  have hVs : (s.map (fun x => (x - ((n:ℝ) + 1) / 2)^2)).sum
      = (n:ℝ) * ((n:ℝ)^2 - 1) / 12 := by
    rw [sum_sub_sq, hssq, hssum, hslen]
    ring
  have hP : ((r.zip s).map (fun p => p.1 * p.2)).sum
      = ((n:ℝ) * ((n:ℝ) + 1) * (2*(n:ℝ) + 1) / 6
          + (n:ℝ) * ((n:ℝ) + 1) * (2*(n:ℝ) + 1) / 6
          - ((r.zip s).map (fun p => (p.1 - p.2)^2)).sum) / 2 := by
    have h2 := sum_zip_sub_sq r s hlen'
    rw [hrsq, hssq] at h2
    linarith
  have hcov : ((r.zip s).map
        (fun p => (p.1 - ((n:ℝ) + 1) / 2) * (p.2 - ((n:ℝ) + 1) / 2))).sum
      = (n:ℝ) * ((n:ℝ)^2 - 1) / 12
        - ((r.zip s).map (fun p => (p.1 - p.2)^2)).sum / 2 := by
    rw [sum_zip_mul_sub r _ _ s hlen', hP, hrsum, hssum, hrlen]
    ring
  have hD : ((r.zip s).map (fun p => (p.1 - p.2)^2)).sum
      = ((xs.zip ys).map
          (fun p => ((rankOf xs p.1 : ℝ) - (rankOf ys p.2 : ℝ))^2)).sum := by
    rw [hr, hs]
    unfold ranksOf
    rw [List.zip_map, List.zip_map, List.map_map, List.map_map]
    rfl
  have hVpos : (0:ℝ) < (n:ℝ) * ((n:ℝ)^2 - 1) / 12 := by nlinarith
  unfold pearson
  rw [hc, hcs, hcov, hV, hVs, Real.mul_self_sqrt (le_of_lt hVpos), hD]
  have hmul : (n:ℝ) * ((n:ℝ)^2 - 1) ≠ 0 := by nlinarith
  field_simp
  ring

/-- The closed-form Spearman correlation does not depend on which
enumeration of the intersection is used. -/
theorem spearman_spec_perm (A B : List PyKey) {c1 c2 : List PyKey} (h : c1.Perm c2) :
    spearman_spec A B c1 = spearman_spec A B c2 := by
  unfold spearman_spec
  simp only [List.zip_map', List.map_map]
  have hfA : ∀ v, rankOf (c1.map (fun d => A.indexOf d)) v
      = rankOf (c2.map (fun d => A.indexOf d)) v :=
    fun v => rankOf_congr (h.map _) v
  have hfB : ∀ v, rankOf (c1.map (fun d => B.indexOf d)) v
      = rankOf (c2.map (fun d => B.indexOf d)) v :=
    fun v => rankOf_congr (h.map _) v
  have hsum : (c1.map ((fun p : ℕ × ℕ =>
        ((rankOf (c1.map (fun d => A.indexOf d)) p.1 : ℝ)
          - (rankOf (c1.map (fun d => B.indexOf d)) p.2 : ℝ))^2)
      ∘ fun d => (A.indexOf d, B.indexOf d))).sum
      = (c2.map ((fun p : ℕ × ℕ =>
        ((rankOf (c2.map (fun d => A.indexOf d)) p.1 : ℝ)
          - (rankOf (c2.map (fun d => B.indexOf d)) p.2 : ℝ))^2)
      ∘ fun d => (A.indexOf d, B.indexOf d))).sum := by
    rw [List.map_congr_left (g := (fun p : ℕ × ℕ =>
        ((rankOf (c2.map (fun d => A.indexOf d)) p.1 : ℝ)
          - (rankOf (c2.map (fun d => B.indexOf d)) p.2 : ℝ))^2)
      ∘ fun d => (A.indexOf d, B.indexOf d)) ?_]
    · exact (h.map _).sum_eq
    · intro a ha
      simp only [Function.comp]
      rw [hfA, hfB]
  rw [hsum, h.length_eq]

/-- C8: the rank correlation reported by
`calculate_ranking_statistics` — scipy's Pearson-of-ranks over the
intersecting document ids at each list's own 0-based positions — equals
the textbook Spearman closed form of the spec whenever at least 2 ids
overlap (whatever enumeration of the unordered intersection is used,
and independently of it), and with fewer than 2 overlapping ids it is
reported as 0 (empty overlap) or as scipy's nan, i.e. undefined (single
overlap), never as an error. -/
theorem C8_rank_correlation_spec (A B common : List PyKey) (hA : A.Nodup)
    (_hB : B.Nodup) (hperm : common.Perm (commonDocs A B)) :
    (2 ≤ common.length →
      rank_correlation A B common = some (spearman_spec A B common) ∧
      spearman_spec A B common = spearman_spec A B (commonDocs A B)) ∧
    (common.length < 2 →
      rank_correlation A B common = some 0 ∨ rank_correlation A B common = none) := by
  constructor
  · intro h2
    have hcommonnd : common.Nodup := (hperm.nodup_iff).mpr (hA.filter _)
    have hmemA : ∀ x ∈ common, x ∈ A := by
      intro x hx
      exact (List.mem_filter.mp (hperm.mem_iff.mp hx)).1
    have hmemB : ∀ x ∈ common, x ∈ B := by
      intro x hx
      exact of_decide_eq_true (List.mem_filter.mp (hperm.mem_iff.mp hx)).2
    have hndA : (common.map (fun d => A.indexOf d)).Nodup := by
      refine hcommonnd.map_on ?_
      intro x hxm y hym hxy
      exact (List.indexOf_inj (hmemA x hxm) (hmemA y hym)).mp hxy
    have hndB : (common.map (fun d => B.indexOf d)).Nodup := by
      refine hcommonnd.map_on ?_
      intro x hxm y hym hxy
      exact (List.indexOf_inj (hmemB x hxm) (hmemB y hym)).mp hxy
    have hlenAB : (common.map (fun d => A.indexOf d)).length
        = (common.map (fun d => B.indexOf d)).length := by
      rw [List.length_map, List.length_map]
    have hlen2 : 2 ≤ (common.map (fun d => A.indexOf d)).length := by
      rw [List.length_map]
      exact h2
    have hne : ¬ common.isEmpty = true := by
      intro he
      rw [List.isEmpty_iff.mp he] at h2
      simp at h2
    refine ⟨?_, spearman_spec_perm A B hperm⟩
    unfold rank_correlation
    rw [if_neg hne, if_neg (not_lt.mpr h2)]
    refine congrArg some ?_
    have hscipy := spearman_scipy_eq (common.map (fun d => A.indexOf d))
      (common.map (fun d => B.indexOf d)) hndA hndB hlenAB hlen2
    rw [List.length_map] at hscipy
    exact hscipy
  · intro hlt
    unfold rank_correlation
    by_cases he : common.isEmpty
    · rw [if_pos he]
      exact Or.inl rfl
    · rw [if_neg he, if_pos hlt]
      exact Or.inr rfl

/-- C8 witness: for the ranked id lists `[0, 1, 2]` and `[1, 0, 3]`
(intersection `{0, 1}`, 2 overlapping ids) the reported correlation is
the closed-form Spearman value over the intersection, independent of
the intersection's enumeration. -/
theorem C8_rank_correlation_spec_witness :
    ([PyKey.int 0, PyKey.int 1, PyKey.int 2] : List PyKey).Nodup ∧
    ([PyKey.int 1, PyKey.int 0, PyKey.int 3] : List PyKey).Nodup ∧
    [PyKey.int 0, PyKey.int 1].Perm
      (commonDocs [PyKey.int 0, PyKey.int 1, PyKey.int 2]
        [PyKey.int 1, PyKey.int 0, PyKey.int 3]) ∧
    2 ≤ ([PyKey.int 0, PyKey.int 1] : List PyKey).length ∧
    (rank_correlation [PyKey.int 0, PyKey.int 1, PyKey.int 2]
        [PyKey.int 1, PyKey.int 0, PyKey.int 3] [PyKey.int 0, PyKey.int 1]
      = some (spearman_spec [PyKey.int 0, PyKey.int 1, PyKey.int 2]
          [PyKey.int 1, PyKey.int 0, PyKey.int 3] [PyKey.int 0, PyKey.int 1]) ∧
      spearman_spec [PyKey.int 0, PyKey.int 1, PyKey.int 2]
          [PyKey.int 1, PyKey.int 0, PyKey.int 3] [PyKey.int 0, PyKey.int 1]
        = spearman_spec [PyKey.int 0, PyKey.int 1, PyKey.int 2]
            [PyKey.int 1, PyKey.int 0, PyKey.int 3]
            (commonDocs [PyKey.int 0, PyKey.int 1, PyKey.int 2]
              [PyKey.int 1, PyKey.int 0, PyKey.int 3])) :=
  ⟨by decide, by decide, by decide, by decide,
    (C8_rank_correlation_spec [PyKey.int 0, PyKey.int 1, PyKey.int 2]
      [PyKey.int 1, PyKey.int 0, PyKey.int 3] [PyKey.int 0, PyKey.int 1]
      (by decide) (by decide) (by decide)).1 (by decide)⟩
